import Mathlib

/-!
Verification of the `speak` IDL compiler front end (lexer `lex.go`, parser
`parse.go`).  The Go code is shallowly embedded: the input text is a list of
Unicode code points (`List Char`), positions are byte offsets computed with
explicit UTF-8 widths (mirroring Go's byte-indexed strings), the lexer's
channel-based state machine is embedded as a fuel-indexed recursion producing
the finite item sequence the parser can observe, and the parser's mutable
state is threaded explicitly.  Error items carry the offending source text as
their value; the Go code wraps that text into a formatted message (`errorf`,
`itemError`), formatting which no theorem below depends on.
-/

namespace Speak

/-! ## Character classes (`lex.go`: `isSpace`, `isEol`, `isDigit`, `isLetter`,
`isAlphaNumeric`) -/

def isSpace (c : Char) : Bool := c = ' ' || c = '\t'

def isEol (c : Char) : Bool := c = '\r' || c = '\n'

def isDigit (c : Char) : Bool := '0' ≤ c && c ≤ '9'

def isLetter (c : Char) : Bool := ('A' ≤ c && c ≤ 'Z') || ('a' ≤ c && c ≤ 'z')

def isAlphaNumeric (c : Char) : Bool := isLetter c || isDigit c

/-! ## UTF-8 encoding.  Go strings are byte strings; `Lexer.next` decodes one
rune at a time and advances `pos` by the rune's UTF-8 width.  We model the
input as code points and recover the byte view explicitly. -/

/-- The UTF-8 bytes of one code point. -/
def charBytes (c : Char) : List Nat :=
  let n := c.toNat
  if n < 128 then [n]
  else if n < 2048 then [192 + n / 64, 128 + n % 64]
  else if n < 65536 then [224 + n / 4096, 128 + (n / 64) % 64, 128 + n % 64]
  else [240 + n / 262144, 128 + (n / 4096) % 64, 128 + (n / 64) % 64, 128 + n % 64]

/-- The UTF-8 byte string of a text. -/
def utf8Bytes (s : List Char) : List Nat := (s.map charBytes).flatten

/-- Byte length of a text (`len(s)` on the Go side). -/
def bytesLen (s : List Char) : Nat := (utf8Bytes s).length

/-! ## Item kinds (`lex.go`: the `ItemKind` constants).  `code` records the
`iota` value of each constant; `isBasicType` compares codes exactly as the Go
range check does. -/

inductive ItemKind where
  | ItemError | ItemIdentifier | ItemNumber | ItemEol | ItemEof
  | ItemLeftBracket | ItemRightBracket | ItemDot | ItemColon
  | ItemChoice | ItemEnd | ItemEnum | ItemMessage | ItemPackage | ItemType
  | ItemBasicTypeBegin
  | ItemBool | ItemByte | ItemInt8 | ItemInt16 | ItemInt32 | ItemInt64
  | ItemUint8 | ItemUint16 | ItemUint32 | ItemUint64
  | ItemFloat32 | ItemFloat64 | ItemString
  | ItemBasicTypeEnd
  deriving DecidableEq, Repr

/-- The `iota` value of each item kind constant. -/
def ItemKind.code : ItemKind → Nat
  | .ItemError => 0 | .ItemIdentifier => 1 | .ItemNumber => 2 | .ItemEol => 3
  | .ItemEof => 4 | .ItemLeftBracket => 5 | .ItemRightBracket => 6
  | .ItemDot => 7 | .ItemColon => 8 | .ItemChoice => 9 | .ItemEnd => 10
  | .ItemEnum => 11 | .ItemMessage => 12 | .ItemPackage => 13 | .ItemType => 14
  | .ItemBasicTypeBegin => 15
  | .ItemBool => 16 | .ItemByte => 17 | .ItemInt8 => 18 | .ItemInt16 => 19
  | .ItemInt32 => 20 | .ItemInt64 => 21 | .ItemUint8 => 22 | .ItemUint16 => 23
  | .ItemUint32 => 24 | .ItemUint64 => 25 | .ItemFloat32 => 26
  | .ItemFloat64 => 27 | .ItemString => 28 | .ItemBasicTypeEnd => 29

/-- `ItemKind.isBasicType` from `lex.go`: strict range comparison on codes. -/
def ItemKind.isBasicType (kind : ItemKind) : Bool :=
  ItemKind.code .ItemBasicTypeBegin < kind.code &&
    kind.code < ItemKind.code .ItemBasicTypeEnd

/-- The entries of the `strToItemKind` map from `lex.go`. -/
def keywordTable : List (List Char × ItemKind) :=
  [("choice".data, .ItemChoice), ("end".data, .ItemEnd), ("enum".data, .ItemEnum),
   ("message".data, .ItemMessage), ("package".data, .ItemPackage),
   ("type".data, .ItemType), ("bool".data, .ItemBool), ("byte".data, .ItemByte),
   ("int8".data, .ItemInt8), ("int16".data, .ItemInt16),
   ("int32".data, .ItemInt32), ("int64".data, .ItemInt64),
   ("uint8".data, .ItemUint8), ("uint16".data, .ItemUint16),
   ("uint32".data, .ItemUint32), ("uint64".data, .ItemUint64),
   ("float32".data, .ItemFloat32), ("float64".data, .ItemFloat64),
   ("string".data, .ItemString)]

/-- The `strToItemKind` map lookup: exact spelling of reserved words and
basic types.  A missed lookup is `none` (the Go map yields the zero value
`ItemError`, which `lexIdentifier` tests for). -/
def strToItemKind (s : List Char) : Option ItemKind :=
  (keywordTable.find? (fun kv => kv.1 == s)).map Prod.snd

/-- An `Item` from `lex.go`: kind, value text, starting byte offset. -/
structure Item where
  kind : ItemKind
  value : List Char
  pos : Nat
  deriving DecidableEq, Repr

/-! ## The lexer state machine (`lexRoot`, `lexSpace`, `lexEol`, `lexComment`,
`lexIdentifier`, `lexNumber`, `scanNumber`).

The Go lexer runs the state functions in a goroutine and streams items over a
channel; after emitting `ItemEof` or an error item the next state is `nil`
and nothing further is ever sent.  `lexTop` produces exactly that finite item
sequence.  The first argument is fuel for the recursion; every step consumes
at least one input character, so `input.length + 1` fuel always suffices
(`lexFrom` below) and the fuel never influences the result.  The second `Nat`
is the current byte offset, which equals both `l.start` and `l.pos` whenever
the Go dispatch loop is at the top of an iteration. -/

def lexTop : Nat → List Char → Nat → List Item
  | 0, _, _ => []
  | _ + 1, [], pos => [⟨.ItemEof, [], pos⟩]
  | fuel + 1, c :: rest, pos =>
    if c = '/' ∧ rest.head? = some '/' then
      lexTop fuel (rest.tail.dropWhile (fun r => !(isEol r)))
        (pos + 2 + bytesLen (rest.tail.takeWhile (fun r => !(isEol r))))
    else if isEol c then
      ⟨.ItemEol, c :: rest.takeWhile isEol, pos⟩ ::
        lexTop fuel (rest.dropWhile isEol)
          (pos + bytesLen (c :: rest.takeWhile isEol))
    else if isSpace c then
      lexTop fuel (rest.dropWhile isSpace) (pos + bytesLen (c :: rest.takeWhile isSpace))
    else if c = '[' then
      ⟨.ItemLeftBracket, [c], pos⟩ :: lexTop fuel rest (pos + 1)
    else if c = ']' then
      ⟨.ItemRightBracket, [c], pos⟩ :: lexTop fuel rest (pos + 1)
    else if c = '.' then
      ⟨.ItemDot, [c], pos⟩ :: lexTop fuel rest (pos + 1)
    else if c = ':' then
      ⟨.ItemColon, [c], pos⟩ :: lexTop fuel rest (pos + 1)
    else if isLetter c then
      ⟨(strToItemKind (c :: rest.takeWhile isAlphaNumeric)).getD .ItemIdentifier,
          c :: rest.takeWhile isAlphaNumeric, pos⟩ ::
        lexTop fuel (rest.dropWhile isAlphaNumeric)
          (pos + bytesLen (c :: rest.takeWhile isAlphaNumeric))
    else if isDigit c then
      if 1 < (c :: rest.takeWhile isDigit).length ∧ c = '0' then
        [⟨.ItemError, c :: rest.takeWhile isDigit, pos⟩]
      else if ((rest.dropWhile isDigit).head?.map isLetter).getD false then
        [⟨.ItemError, (c :: rest.takeWhile isDigit) ++ (rest.dropWhile isDigit).take 1, pos⟩]
      else
        ⟨.ItemNumber, c :: rest.takeWhile isDigit, pos⟩ ::
          lexTop fuel (rest.dropWhile isDigit) (pos + bytesLen (c :: rest.takeWhile isDigit))
    else
      [⟨.ItemError, [c], pos⟩]

/-- The item sequence the lexer emits from `input` scanning at byte offset
`pos`, with always-sufficient fuel. -/
def lexFrom (input : List Char) (pos : Nat) : List Item :=
  lexTop (input.length + 1) input pos

/-- All items the lexer emits for `input` (`NewLexer` + draining `NextItem`
until the eof or error item). -/
def lexItems (input : List Char) : List Item := lexFrom input 0

/-! ## Position reporting (`LineNumber`, `ColumnNumber`).  Both functions
index the raw bytes of the input. -/

/-- `Lexer.LineNumber`: 1 + count of `"\n"` bytes before the item, plus one
more when the item starts on an EOL byte. -/
def LineNumber (input : List Char) (item : Item) : Nat :=
  let B := utf8Bytes input
  if item.kind = .ItemEof then 1 + B.count 10
  else
    let line := 1 + (B.take item.pos).count 10
    if B.getD item.pos 0 = 13 ∨ B.getD item.pos 0 = 10 then line + 1 else line

/-- The descending byte loop inside `Lexer.ColumnNumber`: walk from byte
index `i` down to 0, stopping at an EOL byte, incrementing the column for
every byte with the top bit clear (`c&0x80 == 0`). -/
def colCount (B : List Nat) : Nat → Int → Int
  | 0, col =>
    let c := B.getD 0 0
    if c = 13 ∨ c = 10 then col
    else if c < 128 then col + 1 else col
  | i + 1, col =>
    let c := B.getD (i + 1) 0
    if c = 13 ∨ c = 10 then col
    else colCount B i (if c < 128 then col + 1 else col)

/-- `Lexer.ColumnNumber` from `lex.go`. -/
def ColumnNumber (input : List Char) (item : Item) : Int :=
  let B := utf8Bytes input
  if item.kind = .ItemEof then
    if 0 < item.pos then colCount B (item.pos - 1) 0 else 0
  else colCount B item.pos (-1)

/-! ## Parser state (`parse.go`: `Parser`).

The Go parser pulls items from the lexer's channel; `stream` holds the items
not yet pulled (the lexer's remaining output).  `NextItem` on an exhausted
producer would block forever in Go; `consume` guards against that by pinning
the cursor on `ItemEof`/`ItemError`, and for well-formed lexer streams the
unguarded pull always finds the stream non-empty (the model leaves the state
unchanged in the unreachable empty case).

Diagnostics: the Go `itemError` renders `file:line:column: error: message`
strings; the model records the anchoring item and the message's identity
(`ErrMsg`), which is all the theorems below inspect. -/

/-- Identity of a parser diagnostic message. -/
inductive ErrMsg where
  | expected (kind : ItemKind)
  | expectedBig
  | expectedLittle
  | expectedBasicType
  | unexpectedToken
  | lexical
  deriving DecidableEq, Repr

/-- One recorded diagnostic: the item it is anchored to and the message. -/
structure PError where
  item : Item
  msg : ErrMsg
  deriving DecidableEq, Repr

/-- The Go zero value of `Item` (kind 0 is `ItemError`). -/
def zeroItem : Item := ⟨.ItemError, [], 0⟩

/-- Parser state from `parse.go`. -/
structure Parser where
  stream : List Item
  prev : Item
  next : Item
  errors : List PError
  pkg : List Char
  deriving DecidableEq, Repr

/-- `Parser.ok`: the parser error state is clean. -/
def ok (p : Parser) : Bool := p.errors.isEmpty

/-- `Parser.consume`: record `prev` and pull the following item unless the
cursor is pinned on end-of-input or error. -/
def consume (p : Parser) : Parser :=
  if p.next.kind ≠ .ItemEof ∧ p.next.kind ≠ .ItemError then
    match p.stream with
    | [] => { p with prev := p.next }
    | i :: rest => { p with prev := p.next, next := i, stream := rest }
  else { p with prev := p.next }

/-- `Parser.itemError`: append one diagnostic anchored at `item`.  An error
item forwards the lexical message; otherwise the supplied message (or the
catch-all) is used. -/
def itemError (p : Parser) (item : Item) (post : Option ErrMsg) : Parser :=
  let msg := if item.kind = .ItemError then ErrMsg.lexical
             else post.getD .unexpectedToken
  { p with errors := p.errors ++ [⟨item, msg⟩] }

/-- `Parser.accept`. -/
def accept (kind : ItemKind) (p : Parser) : Parser × Bool :=
  if p.next.kind = kind then (consume p, true) else (p, false)

/-- `Parser.acceptM`. -/
def acceptM (fn : Item → Option ErrMsg) (p : Parser) : Parser × Bool :=
  match fn p.next with
  | some _ => (p, false)
  | none => (consume p, true)

/-- `Parser.expect`. -/
def expect (kind : ItemKind) (p : Parser) : Parser × Bool :=
  if p.next.kind = kind then (consume p, true)
  else (itemError p p.next (some (.expected kind)), false)

/-- `Parser.expectM`. -/
def expectM (fn : Item → Option ErrMsg) (p : Parser) : Parser × Bool :=
  match fn p.next with
  | some e => (itemError p p.next (some e), false)
  | none => (consume p, true)

/-- `matchBigIdentifier`: an identifier item whose first byte (`Value[0]`,
always in bounds for lexer-produced identifiers) is an uppercase ASCII
letter. -/
def matchBigIdentifier (item : Item) : Option ErrMsg :=
  if item.kind = .ItemIdentifier then
    let r := (utf8Bytes item.value).getD 0 0
    if 65 ≤ r ∧ r ≤ 90 then none else some .expectedBig
  else some .expectedBig

/-- `matchLittleIdentifier`: first byte a lowercase ASCII letter. -/
def matchLittleIdentifier (item : Item) : Option ErrMsg :=
  if item.kind = .ItemIdentifier then
    let r := (utf8Bytes item.value).getD 0 0
    if 97 ≤ r ∧ r ≤ 122 then none else some .expectedLittle
  else some .expectedLittle

/-- `matchBasicType`. -/
def matchBasicType (item : Item) : Option ErrMsg :=
  if item.kind.isBasicType then none else some .expectedBasicType

/-! ## Productions (`parse.go`).  The `_ = a && b && ...` chains are Go's
short-circuit evaluation, rendered as nested `if`s. -/

/-- `Parser.parseChoiceIdentifier`. -/
def parseChoiceIdentifier (p : Parser) : Parser × Bool :=
  let p1 := (expect .ItemIdentifier p).1
  let item0 := p1.prev
  let r2 := accept .ItemDot p1
  let p3 :=
    if r2.2 then (expectM matchBigIdentifier r2.1).1
    else
      match matchBigIdentifier item0 with
      | some e => itemError r2.1 item0 (some e)
      | none => r2.1
  (p3, ok p3)

/-- `Parser.parseChoiceField`. -/
def parseChoiceField (p : Parser) : Parser :=
  let r1 := expect .ItemNumber p
  if r1.2 then
    let r2 := expect .ItemColon r1.1
    if r2.2 then
      let r3 := parseChoiceIdentifier r2.1
      if r3.2 then (expect .ItemEol r3.1).1 else r3.1
    else r2.1
  else r1.1

/-- `Parser.parseEnumField`. -/
def parseEnumField (p : Parser) : Parser :=
  let r1 := expect .ItemNumber p
  if r1.2 then
    let r2 := expect .ItemColon r1.1
    if r2.2 then
      let r3 := expectM matchBigIdentifier r2.1
      if r3.2 then (expect .ItemEol r3.1).1 else r3.1
    else r2.1
  else r1.1

/-- `Parser.parseArray`. -/
def parseArray (p : Parser) : Parser × Bool :=
  let r1 := accept .ItemLeftBracket p
  let p2 :=
    if r1.2 then (expect .ItemRightBracket (accept .ItemNumber r1.1).1).1
    else r1.1
  (p2, ok p2)

/-- `Parser.parseTypeIdentifier`. -/
def parseTypeIdentifier (p : Parser) : Parser × Bool :=
  let r1 := acceptM matchBasicType p
  let p2 := if r1.2 then r1.1 else (parseChoiceIdentifier r1.1).1
  (p2, ok p2)

/-- `Parser.parseMessageField`. -/
def parseMessageField (p : Parser) : Parser :=
  let r1 := expect .ItemNumber p
  if r1.2 then
    let r2 := expect .ItemColon r1.1
    if r2.2 then
      let r3 := expectM matchLittleIdentifier r2.1
      if r3.2 then
        let r4 := parseArray r3.1
        if r4.2 then
          let r5 := parseTypeIdentifier r4.1
          if r5.2 then (expect .ItemEol r5.1).1 else r5.1
        else r4.1
      else r3.1
    else r2.1
  else r1.1

/-- `Parser.parsePackage`: record the package name (overwriting any previous
value). -/
def parsePackage (p : Parser) : Parser :=
  let r1 := expect .ItemIdentifier p
  if r1.2 then
    (expect .ItemEol { r1.1 with pkg := r1.1.prev.value }).1
  else r1.1

/-- `Parser.parseType`. -/
def parseType (p : Parser) : Parser :=
  let r1 := expectM matchBigIdentifier p
  if r1.2 then
    let r2 := parseArray r1.1
    if r2.2 then
      let r3 := expectM matchBasicType r2.1
      if r3.2 then (expect .ItemEol r3.1).1 else r3.1
    else r2.1
  else r1.1

/-! The `for p.ok() && !p.accept(ItemEnd)` body loops of `parseEnum`,
`parseChoice` and `parseMessage`, and the top-level dispatch loop of
`parseRoot`.  Go's loops need no fuel; here each loop carries a fuel counter
and signals exhaustion with `none`.  Every iteration either consumes an item
from the stream or records an error that stops the loop at its next guard
check, so `stream.length + 2` fuel always suffices (proved below); the
wrappers start each loop with exactly that fuel. -/

/-- Body loop of `Parser.parseEnum`. -/
def parseEnumLoop : Nat → Parser → Option Parser
  | 0, _ => none
  | fuel + 1, p =>
    if !(ok p) then some p
    else
      let r := accept .ItemEnd p
      if r.2 then some r.1
      else parseEnumLoop fuel (parseEnumField r.1)

/-- `Parser.parseEnum`. -/
def parseEnum (p : Parser) : Option Parser :=
  let (p1, b1) := expectM matchBigIdentifier p
  if b1 then
    let (p2, b2) := expect .ItemEol p1
    if b2 then parseEnumLoop (p2.stream.length + 2) p2 else some p2
  else some p1

/-- Body loop of `Parser.parseChoice`. -/
def parseChoiceLoop : Nat → Parser → Option Parser
  | 0, _ => none
  | fuel + 1, p =>
    if !(ok p) then some p
    else
      let r := accept .ItemEnd p
      if r.2 then some r.1
      else parseChoiceLoop fuel (parseChoiceField r.1)

/-- `Parser.parseChoice`. -/
def parseChoice (p : Parser) : Option Parser :=
  let (p1, b1) := expectM matchBigIdentifier p
  if b1 then
    let (p2, b2) := expect .ItemEol p1
    if b2 then parseChoiceLoop (p2.stream.length + 2) p2 else some p2
  else some p1

/-- Body loop of `Parser.parseMessage`. -/
def parseMessageLoop : Nat → Parser → Option Parser
  | 0, _ => none
  | fuel + 1, p =>
    if !(ok p) then some p
    else
      let r := accept .ItemEnd p
      if r.2 then some r.1
      else parseMessageLoop fuel (parseMessageField r.1)

/-- `Parser.parseMessage`. -/
def parseMessage (p : Parser) : Option Parser :=
  let (p1, b1) := expectM matchBigIdentifier p
  if b1 then
    let (p2, b2) := expect .ItemEol p1
    if b2 then parseMessageLoop (p2.stream.length + 2) p2 else some p2
  else some p1

/-- `Parser.parseRoot`: the top-level dispatch loop, running while `p.ok()`
holds, matching the Go `switch` case order; `break out` on end-of-input. -/
def parseRootLoop : Nat → Parser → Option Parser
  | 0, _ => none
  | fuel + 1, p =>
    if !(ok p) then some p
    else
      let r1 := accept .ItemEol p
      if r1.2 then parseRootLoop fuel r1.1
      else
        let r2 := accept .ItemChoice p
        if r2.2 then (parseChoice r2.1).bind (parseRootLoop fuel)
        else
          let r3 := accept .ItemEnum p
          if r3.2 then (parseEnum r3.1).bind (parseRootLoop fuel)
          else
            let r4 := accept .ItemMessage p
            if r4.2 then (parseMessage r4.1).bind (parseRootLoop fuel)
            else
              let r5 := accept .ItemPackage p
              if r5.2 then parseRootLoop fuel (parsePackage r5.1)
              else
                let r6 := accept .ItemType p
                if r6.2 then parseRootLoop fuel (parseType r6.1)
                else
                  let r7 := accept .ItemEof p
                  if r7.2 then some r7.1
                  else parseRootLoop fuel (itemError p p.next none)

/-- `Parser.ParseText` on a zero-valued parser: lex the input, seed the
cursor with the first item, then run the dispatch loop. -/
def parseText (input : List Char) : Option Parser :=
  match lexItems input with
  | [] => none
  | first :: rest =>
    parseRootLoop (rest.length + 2)
      { stream := rest, prev := zeroItem, next := first, errors := [], pkg := [] }

/-! ## Byte-length and list helper lemmas -/

theorem charBytes_length_pos (c : Char) : 0 < (charBytes c).length := by
  simp only [charBytes]
  split_ifs <;> simp

theorem bytesLen_nil : bytesLen ([] : List Char) = 0 := rfl

theorem bytesLen_cons (c : Char) (l : List Char) :
    bytesLen (c :: l) = (charBytes c).length + bytesLen l := by
  simp [bytesLen, utf8Bytes]

theorem bytesLen_append (a b : List Char) :
    bytesLen (a ++ b) = bytesLen a + bytesLen b := by
  simp [bytesLen, utf8Bytes]

theorem bytesLen_cons_pos (c : Char) (l : List Char) : 0 < bytesLen (c :: l) := by
  rw [bytesLen_cons]
  have := charBytes_length_pos c
  omega

theorem utf8Bytes_append (a b : List Char) :
    utf8Bytes (a ++ b) = utf8Bytes a ++ utf8Bytes b := by
  simp [utf8Bytes]

theorem length_dropWhile_le (p : Char → Bool) (l : List Char) :
    (l.dropWhile p).length ≤ l.length := by
  induction l with
  | nil => simp
  | cons c rest ih =>
    by_cases h : p c
    · rw [List.dropWhile_cons_of_pos h]
      exact Nat.le_succ_of_le ih
    · rw [List.dropWhile_cons_of_neg h]

theorem length_tail_le (l : List Char) : l.tail.length ≤ l.length := by
  cases l <;> simp

/-! ## One unfolding lemma per lexer branch, in the dispatch order of
`lexRoot`. -/

section LexStep

variable (fuel : Nat) (c : Char) (rest : List Char) (pos : Nat)

theorem lexTop_comment (h1 : c = '/' ∧ rest.head? = some '/') :
    lexTop (fuel + 1) (c :: rest) pos =
      lexTop fuel (rest.tail.dropWhile (fun r => !(isEol r)))
        (pos + 2 + bytesLen (rest.tail.takeWhile (fun r => !(isEol r)))) := by
  rw [lexTop.eq_3, if_pos h1]

theorem lexTop_eol (h1 : ¬(c = '/' ∧ rest.head? = some '/'))
    (h2 : isEol c = true) :
    lexTop (fuel + 1) (c :: rest) pos =
      ⟨.ItemEol, c :: rest.takeWhile isEol, pos⟩ ::
        lexTop fuel (rest.dropWhile isEol)
          (pos + bytesLen (c :: rest.takeWhile isEol)) := by
  rw [lexTop.eq_3, if_neg h1, if_pos h2]

theorem lexTop_space (h1 : ¬(c = '/' ∧ rest.head? = some '/'))
    (h2 : ¬isEol c = true) (h3 : isSpace c = true) :
    lexTop (fuel + 1) (c :: rest) pos =
      lexTop fuel (rest.dropWhile isSpace)
        (pos + bytesLen (c :: rest.takeWhile isSpace)) := by
  rw [lexTop.eq_3, if_neg h1, if_neg h2, if_pos h3]

theorem lexTop_lbracket (h1 : ¬(c = '/' ∧ rest.head? = some '/'))
    (h2 : ¬isEol c = true) (h3 : ¬isSpace c = true) (h4 : c = '[') :
    lexTop (fuel + 1) (c :: rest) pos =
      ⟨.ItemLeftBracket, [c], pos⟩ :: lexTop fuel rest (pos + 1) := by
  rw [lexTop.eq_3, if_neg h1, if_neg h2, if_neg h3, if_pos h4]

theorem lexTop_rbracket (h1 : ¬(c = '/' ∧ rest.head? = some '/'))
    (h2 : ¬isEol c = true) (h3 : ¬isSpace c = true) (h4 : ¬c = '[')
    (h5 : c = ']') :
    lexTop (fuel + 1) (c :: rest) pos =
      ⟨.ItemRightBracket, [c], pos⟩ :: lexTop fuel rest (pos + 1) := by
  rw [lexTop.eq_3, if_neg h1, if_neg h2, if_neg h3, if_neg h4, if_pos h5]

theorem lexTop_dot (h1 : ¬(c = '/' ∧ rest.head? = some '/'))
    (h2 : ¬isEol c = true) (h3 : ¬isSpace c = true) (h4 : ¬c = '[')
    (h5 : ¬c = ']') (h6 : c = '.') :
    lexTop (fuel + 1) (c :: rest) pos =
      ⟨.ItemDot, [c], pos⟩ :: lexTop fuel rest (pos + 1) := by
  rw [lexTop.eq_3, if_neg h1, if_neg h2, if_neg h3, if_neg h4, if_neg h5,
    if_pos h6]

theorem lexTop_colon (h1 : ¬(c = '/' ∧ rest.head? = some '/'))
    (h2 : ¬isEol c = true) (h3 : ¬isSpace c = true) (h4 : ¬c = '[')
    (h5 : ¬c = ']') (h6 : ¬c = '.') (h7 : c = ':') :
    lexTop (fuel + 1) (c :: rest) pos =
      ⟨.ItemColon, [c], pos⟩ :: lexTop fuel rest (pos + 1) := by
  rw [lexTop.eq_3, if_neg h1, if_neg h2, if_neg h3, if_neg h4, if_neg h5,
    if_neg h6, if_pos h7]

theorem lexTop_word (h1 : ¬(c = '/' ∧ rest.head? = some '/'))
    (h2 : ¬isEol c = true) (h3 : ¬isSpace c = true) (h4 : ¬c = '[')
    (h5 : ¬c = ']') (h6 : ¬c = '.') (h7 : ¬c = ':') (h8 : isLetter c = true) :
    lexTop (fuel + 1) (c :: rest) pos =
      ⟨(strToItemKind (c :: rest.takeWhile isAlphaNumeric)).getD .ItemIdentifier,
          c :: rest.takeWhile isAlphaNumeric, pos⟩ ::
        lexTop fuel (rest.dropWhile isAlphaNumeric)
          (pos + bytesLen (c :: rest.takeWhile isAlphaNumeric)) := by
  rw [lexTop.eq_3, if_neg h1, if_neg h2, if_neg h3, if_neg h4, if_neg h5,
    if_neg h6, if_neg h7, if_pos h8]

theorem lexTop_num_zero (h1 : ¬(c = '/' ∧ rest.head? = some '/'))
    (h2 : ¬isEol c = true) (h3 : ¬isSpace c = true) (h4 : ¬c = '[')
    (h5 : ¬c = ']') (h6 : ¬c = '.') (h7 : ¬c = ':') (h8 : ¬isLetter c = true)
    (h9 : isDigit c = true)
    (hz : 1 < (c :: rest.takeWhile isDigit).length ∧ c = '0') :
    lexTop (fuel + 1) (c :: rest) pos =
      [⟨.ItemError, c :: rest.takeWhile isDigit, pos⟩] := by
  rw [lexTop.eq_3, if_neg h1, if_neg h2, if_neg h3, if_neg h4, if_neg h5,
    if_neg h6, if_neg h7, if_neg h8, if_pos h9, if_pos hz]

theorem lexTop_num_letter (h1 : ¬(c = '/' ∧ rest.head? = some '/'))
    (h2 : ¬isEol c = true) (h3 : ¬isSpace c = true) (h4 : ¬c = '[')
    (h5 : ¬c = ']') (h6 : ¬c = '.') (h7 : ¬c = ':') (h8 : ¬isLetter c = true)
    (h9 : isDigit c = true)
    (hz : ¬(1 < (c :: rest.takeWhile isDigit).length ∧ c = '0'))
    (hl : ((rest.dropWhile isDigit).head?.map isLetter).getD false = true) :
    lexTop (fuel + 1) (c :: rest) pos =
      [⟨.ItemError,
        (c :: rest.takeWhile isDigit) ++ (rest.dropWhile isDigit).take 1, pos⟩] := by
  rw [lexTop.eq_3, if_neg h1, if_neg h2, if_neg h3, if_neg h4, if_neg h5,
    if_neg h6, if_neg h7, if_neg h8, if_pos h9, if_neg hz, if_pos hl]

theorem lexTop_num (h1 : ¬(c = '/' ∧ rest.head? = some '/'))
    (h2 : ¬isEol c = true) (h3 : ¬isSpace c = true) (h4 : ¬c = '[')
    (h5 : ¬c = ']') (h6 : ¬c = '.') (h7 : ¬c = ':') (h8 : ¬isLetter c = true)
    (h9 : isDigit c = true)
    (hz : ¬(1 < (c :: rest.takeWhile isDigit).length ∧ c = '0'))
    (hl : ¬((rest.dropWhile isDigit).head?.map isLetter).getD false = true) :
    lexTop (fuel + 1) (c :: rest) pos =
      ⟨.ItemNumber, c :: rest.takeWhile isDigit, pos⟩ ::
        lexTop fuel (rest.dropWhile isDigit)
          (pos + bytesLen (c :: rest.takeWhile isDigit)) := by
  rw [lexTop.eq_3, if_neg h1, if_neg h2, if_neg h3, if_neg h4, if_neg h5,
    if_neg h6, if_neg h7, if_neg h8, if_pos h9, if_neg hz, if_neg hl]

theorem lexTop_other (h1 : ¬(c = '/' ∧ rest.head? = some '/'))
    (h2 : ¬isEol c = true) (h3 : ¬isSpace c = true) (h4 : ¬c = '[')
    (h5 : ¬c = ']') (h6 : ¬c = '.') (h7 : ¬c = ':') (h8 : ¬isLetter c = true)
    (h9 : ¬isDigit c = true) :
    lexTop (fuel + 1) (c :: rest) pos = [⟨.ItemError, [c], pos⟩] := by
  rw [lexTop.eq_3, if_neg h1, if_neg h2, if_neg h3, if_neg h4, if_neg h5,
    if_neg h6, if_neg h7, if_neg h8, if_neg h9]

end LexStep

/-! ## Fuel irrelevance: any fuel strictly above the input length produces
the same item sequence, so `lexFrom` is the unique total behaviour of the
lexer state machine. -/

theorem lexTop_fuel_irrel :
    ∀ (f1 f2 : Nat) (input : List Char) (pos : Nat),
      input.length < f1 → input.length < f2 →
      lexTop f1 input pos = lexTop f2 input pos := by
  intro f1
  induction f1 with
  | zero => intro f2 input pos h1 _; exact absurd h1 (Nat.not_lt_zero _)
  | succ a ih =>
    intro f2 input pos h1 h2
    cases f2 with
    | zero => exact absurd h2 (Nat.not_lt_zero _)
    | succ b =>
      cases input with
      | nil => rfl
      | cons c rest =>
        have hr : rest.length < a := by simp at h1; omega
        have hrb : rest.length < b := by simp at h2; omega
        have hd1 := length_dropWhile_le (fun r => !(isEol r)) rest.tail
        have hd2 := length_dropWhile_le isEol rest
        have hd3 := length_dropWhile_le isSpace rest
        have hd4 := length_dropWhile_le isAlphaNumeric rest
        have hd5 := length_dropWhile_le isDigit rest
        have ht := length_tail_le rest
        by_cases c1 : c = '/' ∧ rest.head? = some '/'
        · rw [lexTop_comment a c rest pos c1, lexTop_comment b c rest pos c1]
          exact ih _ _ _ (by omega) (by omega)
        · by_cases c2 : isEol c = true
          · rw [lexTop_eol a c rest pos c1 c2, lexTop_eol b c rest pos c1 c2]
            exact congrArg _ (ih _ _ _ (by omega) (by omega))
          · by_cases c3 : isSpace c = true
            · rw [lexTop_space a c rest pos c1 c2 c3,
                lexTop_space b c rest pos c1 c2 c3]
              exact ih _ _ _ (by omega) (by omega)
            · by_cases c4 : c = '['
              · rw [lexTop_lbracket a c rest pos c1 c2 c3 c4,
                  lexTop_lbracket b c rest pos c1 c2 c3 c4]
                exact congrArg _ (ih _ _ _ (by omega) (by omega))
              · by_cases c5 : c = ']'
                · rw [lexTop_rbracket a c rest pos c1 c2 c3 c4 c5,
                    lexTop_rbracket b c rest pos c1 c2 c3 c4 c5]
                  exact congrArg _ (ih _ _ _ (by omega) (by omega))
                · by_cases c6 : c = '.'
                  · rw [lexTop_dot a c rest pos c1 c2 c3 c4 c5 c6,
                      lexTop_dot b c rest pos c1 c2 c3 c4 c5 c6]
                    exact congrArg _ (ih _ _ _ (by omega) (by omega))
                  · by_cases c7 : c = ':'
                    · rw [lexTop_colon a c rest pos c1 c2 c3 c4 c5 c6 c7,
                        lexTop_colon b c rest pos c1 c2 c3 c4 c5 c6 c7]
                      exact congrArg _ (ih _ _ _ (by omega) (by omega))
                    · by_cases c8 : isLetter c = true
                      · rw [lexTop_word a c rest pos c1 c2 c3 c4 c5 c6 c7 c8,
                          lexTop_word b c rest pos c1 c2 c3 c4 c5 c6 c7 c8]
                        exact congrArg _ (ih _ _ _ (by omega) (by omega))
                      · by_cases c9 : isDigit c = true
                        · by_cases cz : 1 < (c :: rest.takeWhile isDigit).length ∧ c = '0'
                          · rw [lexTop_num_zero a c rest pos c1 c2 c3 c4 c5 c6 c7 c8 c9 cz,
                              lexTop_num_zero b c rest pos c1 c2 c3 c4 c5 c6 c7 c8 c9 cz]
                          · by_cases cl : ((rest.dropWhile isDigit).head?.map isLetter).getD false = true
                            · rw [lexTop_num_letter a c rest pos c1 c2 c3 c4 c5 c6 c7 c8 c9 cz cl,
                                lexTop_num_letter b c rest pos c1 c2 c3 c4 c5 c6 c7 c8 c9 cz cl]
                            · rw [lexTop_num a c rest pos c1 c2 c3 c4 c5 c6 c7 c8 c9 cz cl,
                                lexTop_num b c rest pos c1 c2 c3 c4 c5 c6 c7 c8 c9 cz cl]
                              exact congrArg _ (ih _ _ _ (by omega) (by omega))
                        · rw [lexTop_other a c rest pos c1 c2 c3 c4 c5 c6 c7 c8 c9,
                            lexTop_other b c rest pos c1 c2 c3 c4 c5 c6 c7 c8 c9]

theorem lexFrom_eq_lexTop (fuel : Nat) (input : List Char) (pos : Nat)
    (h : input.length < fuel) : lexFrom input pos = lexTop fuel input pos :=
  lexTop_fuel_irrel (input.length + 1) fuel input pos (Nat.lt_succ_self _) h

/-! ## Step equations for `lexFrom`, the fuel-free view of the lexer. -/

section LexFromStep

variable (c : Char) (rest : List Char) (pos : Nat)

theorem lexFrom_nil : lexFrom [] pos = [⟨.ItemEof, [], pos⟩] := rfl

theorem lexFrom_comment (h1 : c = '/' ∧ rest.head? = some '/') :
    lexFrom (c :: rest) pos =
      lexFrom (rest.tail.dropWhile (fun r => !(isEol r)))
        (pos + 2 + bytesLen (rest.tail.takeWhile (fun r => !(isEol r)))) := by
  have hb : (rest.tail.dropWhile (fun r => !(isEol r))).length < rest.length + 1 := by
    have := length_dropWhile_le (fun r => !(isEol r)) rest.tail
    have := length_tail_le rest
    omega
  show lexTop ((c :: rest).length + 1) (c :: rest) pos = _
  rw [List.length_cons, lexTop_comment (rest.length + 1) c rest pos h1]
  exact (lexFrom_eq_lexTop _ _ _ hb).symm

theorem lexFrom_eol (h1 : ¬(c = '/' ∧ rest.head? = some '/'))
    (h2 : isEol c = true) :
    lexFrom (c :: rest) pos =
      ⟨.ItemEol, c :: rest.takeWhile isEol, pos⟩ ::
        lexFrom (rest.dropWhile isEol)
          (pos + bytesLen (c :: rest.takeWhile isEol)) := by
  have hb : (rest.dropWhile isEol).length < rest.length + 1 := by
    have := length_dropWhile_le isEol rest
    omega
  show lexTop ((c :: rest).length + 1) (c :: rest) pos = _
  rw [List.length_cons, lexTop_eol (rest.length + 1) c rest pos h1 h2]
  exact congrArg _ (lexFrom_eq_lexTop _ _ _ hb).symm

theorem lexFrom_space (h1 : ¬(c = '/' ∧ rest.head? = some '/'))
    (h2 : ¬isEol c = true) (h3 : isSpace c = true) :
    lexFrom (c :: rest) pos =
      lexFrom (rest.dropWhile isSpace)
        (pos + bytesLen (c :: rest.takeWhile isSpace)) := by
  have hb : (rest.dropWhile isSpace).length < rest.length + 1 := by
    have := length_dropWhile_le isSpace rest
    omega
  show lexTop ((c :: rest).length + 1) (c :: rest) pos = _
  rw [List.length_cons, lexTop_space (rest.length + 1) c rest pos h1 h2 h3]
  exact (lexFrom_eq_lexTop _ _ _ hb).symm

theorem lexFrom_lbracket (h1 : ¬(c = '/' ∧ rest.head? = some '/'))
    (h2 : ¬isEol c = true) (h3 : ¬isSpace c = true) (h4 : c = '[') :
    lexFrom (c :: rest) pos =
      ⟨.ItemLeftBracket, [c], pos⟩ :: lexFrom rest (pos + 1) := by
  show lexTop ((c :: rest).length + 1) (c :: rest) pos = _
  rw [List.length_cons, lexTop_lbracket (rest.length + 1) c rest pos h1 h2 h3 h4]
  exact congrArg _ (lexFrom_eq_lexTop _ _ _ (Nat.lt_succ_self _)).symm

theorem lexFrom_rbracket (h1 : ¬(c = '/' ∧ rest.head? = some '/'))
    (h2 : ¬isEol c = true) (h3 : ¬isSpace c = true) (h4 : ¬c = '[')
    (h5 : c = ']') :
    lexFrom (c :: rest) pos =
      ⟨.ItemRightBracket, [c], pos⟩ :: lexFrom rest (pos + 1) := by
  show lexTop ((c :: rest).length + 1) (c :: rest) pos = _
  rw [List.length_cons, lexTop_rbracket (rest.length + 1) c rest pos h1 h2 h3 h4 h5]
  exact congrArg _ (lexFrom_eq_lexTop _ _ _ (Nat.lt_succ_self _)).symm

theorem lexFrom_dot (h1 : ¬(c = '/' ∧ rest.head? = some '/'))
    (h2 : ¬isEol c = true) (h3 : ¬isSpace c = true) (h4 : ¬c = '[')
    (h5 : ¬c = ']') (h6 : c = '.') :
    lexFrom (c :: rest) pos =
      ⟨.ItemDot, [c], pos⟩ :: lexFrom rest (pos + 1) := by
  show lexTop ((c :: rest).length + 1) (c :: rest) pos = _
  rw [List.length_cons, lexTop_dot (rest.length + 1) c rest pos h1 h2 h3 h4 h5 h6]
  exact congrArg _ (lexFrom_eq_lexTop _ _ _ (Nat.lt_succ_self _)).symm

theorem lexFrom_colon (h1 : ¬(c = '/' ∧ rest.head? = some '/'))
    (h2 : ¬isEol c = true) (h3 : ¬isSpace c = true) (h4 : ¬c = '[')
    (h5 : ¬c = ']') (h6 : ¬c = '.') (h7 : c = ':') :
    lexFrom (c :: rest) pos =
      ⟨.ItemColon, [c], pos⟩ :: lexFrom rest (pos + 1) := by
  show lexTop ((c :: rest).length + 1) (c :: rest) pos = _
  rw [List.length_cons, lexTop_colon (rest.length + 1) c rest pos h1 h2 h3 h4 h5 h6 h7]
  exact congrArg _ (lexFrom_eq_lexTop _ _ _ (Nat.lt_succ_self _)).symm

theorem lexFrom_word (h1 : ¬(c = '/' ∧ rest.head? = some '/'))
    (h2 : ¬isEol c = true) (h3 : ¬isSpace c = true) (h4 : ¬c = '[')
    (h5 : ¬c = ']') (h6 : ¬c = '.') (h7 : ¬c = ':') (h8 : isLetter c = true) :
    lexFrom (c :: rest) pos =
      ⟨(strToItemKind (c :: rest.takeWhile isAlphaNumeric)).getD .ItemIdentifier,
          c :: rest.takeWhile isAlphaNumeric, pos⟩ ::
        lexFrom (rest.dropWhile isAlphaNumeric)
          (pos + bytesLen (c :: rest.takeWhile isAlphaNumeric)) := by
  have hb : (rest.dropWhile isAlphaNumeric).length < rest.length + 1 := by
    have := length_dropWhile_le isAlphaNumeric rest
    omega
  show lexTop ((c :: rest).length + 1) (c :: rest) pos = _
  rw [List.length_cons, lexTop_word (rest.length + 1) c rest pos h1 h2 h3 h4 h5 h6 h7 h8]
  exact congrArg _ (lexFrom_eq_lexTop _ _ _ hb).symm

theorem lexFrom_num_zero (h1 : ¬(c = '/' ∧ rest.head? = some '/'))
    (h2 : ¬isEol c = true) (h3 : ¬isSpace c = true) (h4 : ¬c = '[')
    (h5 : ¬c = ']') (h6 : ¬c = '.') (h7 : ¬c = ':') (h8 : ¬isLetter c = true)
    (h9 : isDigit c = true)
    (hz : 1 < (c :: rest.takeWhile isDigit).length ∧ c = '0') :
    lexFrom (c :: rest) pos = [⟨.ItemError, c :: rest.takeWhile isDigit, pos⟩] := by
  show lexTop ((c :: rest).length + 1) (c :: rest) pos = _
  rw [List.length_cons,
    lexTop_num_zero (rest.length + 1) c rest pos h1 h2 h3 h4 h5 h6 h7 h8 h9 hz]

theorem lexFrom_num_letter (h1 : ¬(c = '/' ∧ rest.head? = some '/'))
    (h2 : ¬isEol c = true) (h3 : ¬isSpace c = true) (h4 : ¬c = '[')
    (h5 : ¬c = ']') (h6 : ¬c = '.') (h7 : ¬c = ':') (h8 : ¬isLetter c = true)
    (h9 : isDigit c = true)
    (hz : ¬(1 < (c :: rest.takeWhile isDigit).length ∧ c = '0'))
    (hl : ((rest.dropWhile isDigit).head?.map isLetter).getD false = true) :
    lexFrom (c :: rest) pos =
      [⟨.ItemError,
        (c :: rest.takeWhile isDigit) ++ (rest.dropWhile isDigit).take 1, pos⟩] := by
  show lexTop ((c :: rest).length + 1) (c :: rest) pos = _
  rw [List.length_cons,
    lexTop_num_letter (rest.length + 1) c rest pos h1 h2 h3 h4 h5 h6 h7 h8 h9 hz hl]

theorem lexFrom_num (h1 : ¬(c = '/' ∧ rest.head? = some '/'))
    (h2 : ¬isEol c = true) (h3 : ¬isSpace c = true) (h4 : ¬c = '[')
    (h5 : ¬c = ']') (h6 : ¬c = '.') (h7 : ¬c = ':') (h8 : ¬isLetter c = true)
    (h9 : isDigit c = true)
    (hz : ¬(1 < (c :: rest.takeWhile isDigit).length ∧ c = '0'))
    (hl : ¬((rest.dropWhile isDigit).head?.map isLetter).getD false = true) :
    lexFrom (c :: rest) pos =
      ⟨.ItemNumber, c :: rest.takeWhile isDigit, pos⟩ ::
        lexFrom (rest.dropWhile isDigit)
          (pos + bytesLen (c :: rest.takeWhile isDigit)) := by
  have hb : (rest.dropWhile isDigit).length < rest.length + 1 := by
    have := length_dropWhile_le isDigit rest
    omega
  show lexTop ((c :: rest).length + 1) (c :: rest) pos = _
  rw [List.length_cons,
    lexTop_num (rest.length + 1) c rest pos h1 h2 h3 h4 h5 h6 h7 h8 h9 hz hl]
  exact congrArg _ (lexFrom_eq_lexTop _ _ _ hb).symm

theorem lexFrom_other (h1 : ¬(c = '/' ∧ rest.head? = some '/'))
    (h2 : ¬isEol c = true) (h3 : ¬isSpace c = true) (h4 : ¬c = '[')
    (h5 : ¬c = ']') (h6 : ¬c = '.') (h7 : ¬c = ':') (h8 : ¬isLetter c = true)
    (h9 : ¬isDigit c = true) :
    lexFrom (c :: rest) pos = [⟨.ItemError, [c], pos⟩] := by
  show lexTop ((c :: rest).length + 1) (c :: rest) pos = _
  rw [List.length_cons,
    lexTop_other (rest.length + 1) c rest pos h1 h2 h3 h4 h5 h6 h7 h8 h9]

end LexFromStep

/-! ## Master lemmas about the emitted item sequence -/

theorem strToItemKind_some_ne (s : List Char) (k : ItemKind)
    (hk : strToItemKind s = some k) : k ≠ .ItemEof ∧ k ≠ .ItemError := by
  unfold strToItemKind at hk
  cases hfind : keywordTable.find? (fun kv => kv.1 == s) with
  | none => rw [hfind] at hk; simp at hk
  | some kv =>
    rw [hfind] at hk
    simp at hk
    have hmem := List.mem_of_find?_eq_some hfind
    have hall : ∀ kv ∈ keywordTable, kv.2 ≠ .ItemEof ∧ kv.2 ≠ .ItemError := by
      decide
    rw [← hk]
    exact hall kv hmem

theorem wordKind_ne_terminal (s : List Char) :
    (strToItemKind s).getD .ItemIdentifier ≠ .ItemEof ∧
    (strToItemKind s).getD .ItemIdentifier ≠ .ItemError := by
  cases h : strToItemKind s with
  | none => exact ⟨by decide, by decide⟩
  | some k => simpa using strToItemKind_some_ne s k h

/-- Every lexer run is a list of non-terminal items followed by exactly one
end-of-input or error item. -/
theorem lex_terminated :
    ∀ (n : Nat) (input : List Char) (pos : Nat), input.length ≤ n →
      ∃ pre last, lexFrom input pos = pre ++ [last] ∧
        (last.kind = .ItemEof ∨ last.kind = .ItemError) ∧
        ∀ i ∈ pre, i.kind ≠ .ItemEof ∧ i.kind ≠ .ItemError := by
  intro n
  induction n with
  | zero =>
    intro input pos h
    have h0 : input = [] := List.length_eq_zero.mp (Nat.le_zero.mp h)
    subst h0
    exact ⟨[], ⟨.ItemEof, [], pos⟩, rfl, Or.inl rfl, by simp⟩
  | succ m ih =>
    intro input pos h
    cases input with
    | nil => exact ⟨[], ⟨.ItemEof, [], pos⟩, rfl, Or.inl rfl, by simp⟩
    | cons c rest =>
      have hlen : rest.length ≤ m := by simp at h; omega
      have hd1 : (rest.tail.dropWhile (fun r => !(isEol r))).length ≤ m :=
        le_trans (length_dropWhile_le _ _) (le_trans (length_tail_le _) hlen)
      have hd2 : (rest.dropWhile isEol).length ≤ m :=
        le_trans (length_dropWhile_le _ _) hlen
      have hd3 : (rest.dropWhile isSpace).length ≤ m :=
        le_trans (length_dropWhile_le _ _) hlen
      have hd4 : (rest.dropWhile isAlphaNumeric).length ≤ m :=
        le_trans (length_dropWhile_le _ _) hlen
      have hd5 : (rest.dropWhile isDigit).length ≤ m :=
        le_trans (length_dropWhile_le _ _) hlen
      by_cases c1 : c = '/' ∧ rest.head? = some '/'
      · rw [lexFrom_comment c rest pos c1]
        exact ih _ _ hd1
      · by_cases c2 : isEol c = true
        · rw [lexFrom_eol c rest pos c1 c2]
          obtain ⟨pre, last, heq, hterm, hpre⟩ := ih _ _ hd2
          refine ⟨⟨.ItemEol, c :: rest.takeWhile isEol, pos⟩ :: pre, last, ?_, hterm, ?_⟩
          · rw [heq]; rfl
          · intro i hi
            rcases List.mem_cons.mp hi with hh | hh
            · subst hh; exact ⟨by simp, by simp⟩
            · exact hpre i hh
        · by_cases c3 : isSpace c = true
          · rw [lexFrom_space c rest pos c1 c2 c3]
            exact ih _ _ hd3
          · by_cases c4 : c = '['
            · rw [lexFrom_lbracket c rest pos c1 c2 c3 c4]
              obtain ⟨pre, last, heq, hterm, hpre⟩ := ih rest (pos + 1) hlen
              refine ⟨⟨.ItemLeftBracket, [c], pos⟩ :: pre, last, ?_, hterm, ?_⟩
              · rw [heq]; rfl
              · intro i hi
                rcases List.mem_cons.mp hi with hh | hh
                · subst hh; exact ⟨by simp, by simp⟩
                · exact hpre i hh
            · by_cases c5 : c = ']'
              · rw [lexFrom_rbracket c rest pos c1 c2 c3 c4 c5]
                obtain ⟨pre, last, heq, hterm, hpre⟩ := ih rest (pos + 1) hlen
                refine ⟨⟨.ItemRightBracket, [c], pos⟩ :: pre, last, ?_, hterm, ?_⟩
                · rw [heq]; rfl
                · intro i hi
                  rcases List.mem_cons.mp hi with hh | hh
                  · subst hh; exact ⟨by simp, by simp⟩
                  · exact hpre i hh
              · by_cases c6 : c = '.'
                · rw [lexFrom_dot c rest pos c1 c2 c3 c4 c5 c6]
                  obtain ⟨pre, last, heq, hterm, hpre⟩ := ih rest (pos + 1) hlen
                  refine ⟨⟨.ItemDot, [c], pos⟩ :: pre, last, ?_, hterm, ?_⟩
                  · rw [heq]; rfl
                  · intro i hi
                    rcases List.mem_cons.mp hi with hh | hh
                    · subst hh; exact ⟨by simp, by simp⟩
                    · exact hpre i hh
                · by_cases c7 : c = ':'
                  · rw [lexFrom_colon c rest pos c1 c2 c3 c4 c5 c6 c7]
                    obtain ⟨pre, last, heq, hterm, hpre⟩ := ih rest (pos + 1) hlen
                    refine ⟨⟨.ItemColon, [c], pos⟩ :: pre, last, ?_, hterm, ?_⟩
                    · rw [heq]; rfl
                    · intro i hi
                      rcases List.mem_cons.mp hi with hh | hh
                      · subst hh; exact ⟨by simp, by simp⟩
                      · exact hpre i hh
                  · by_cases c8 : isLetter c = true
                    · rw [lexFrom_word c rest pos c1 c2 c3 c4 c5 c6 c7 c8]
                      obtain ⟨pre, last, heq, hterm, hpre⟩ := ih _ _ hd4
                      refine ⟨⟨(strToItemKind (c :: rest.takeWhile isAlphaNumeric)).getD
                        .ItemIdentifier, c :: rest.takeWhile isAlphaNumeric, pos⟩ :: pre,
                        last, ?_, hterm, ?_⟩
                      · rw [heq]; rfl
                      · intro i hi
                        rcases List.mem_cons.mp hi with hh | hh
                        · subst hh
                          exact wordKind_ne_terminal (c :: rest.takeWhile isAlphaNumeric)
                        · exact hpre i hh
                    · by_cases c9 : isDigit c = true
                      · by_cases cz : 1 < (c :: rest.takeWhile isDigit).length ∧ c = '0'
                        · rw [lexFrom_num_zero c rest pos c1 c2 c3 c4 c5 c6 c7 c8 c9 cz]
                          exact ⟨[], _, rfl, Or.inr rfl, by simp⟩
                        · by_cases cl :
                            ((rest.dropWhile isDigit).head?.map isLetter).getD false = true
                          · rw [lexFrom_num_letter c rest pos c1 c2 c3 c4 c5 c6 c7 c8 c9 cz cl]
                            exact ⟨[], _, rfl, Or.inr rfl, by simp⟩
                          · rw [lexFrom_num c rest pos c1 c2 c3 c4 c5 c6 c7 c8 c9 cz cl]
                            obtain ⟨pre, last, heq, hterm, hpre⟩ := ih _ _ hd5
                            refine ⟨⟨.ItemNumber, c :: rest.takeWhile isDigit, pos⟩ :: pre,
                              last, ?_, hterm, ?_⟩
                            · rw [heq]; rfl
                            · intro i hi
                              rcases List.mem_cons.mp hi with hh | hh
                              · subst hh; exact ⟨by simp, by simp⟩
                              · exact hpre i hh
                      · rw [lexFrom_other c rest pos c1 c2 c3 c4 c5 c6 c7 c8 c9]
                        exact ⟨[], _, rfl, Or.inr rfl, by simp⟩

theorem isLetter_toNat (c : Char) (h : isLetter c = true) :
    65 ≤ c.toNat ∧ c.toNat ≤ 90 ∨ 97 ≤ c.toNat ∧ c.toNat ≤ 122 := by
  simp only [isLetter, Bool.or_eq_true, Bool.and_eq_true, decide_eq_true_eq] at h
  rcases h with ⟨h1, h2⟩ | ⟨h1, h2⟩
  · left
    simp only [Char.le_def, UInt32.le_def, Fin.le_def] at h1 h2
    exact ⟨h1, h2⟩
  · right
    simp only [Char.le_def, UInt32.le_def, Fin.le_def] at h1 h2
    exact ⟨h1, h2⟩

theorem charBytes_ascii (c : Char) (h : c.toNat < 128) : charBytes c = [c.toNat] := by
  simp [charBytes, h]

/-- Every identifier-kind item the lexer emits carries the scanned word,
which starts with an ASCII letter. -/
theorem lex_ident_value :
    ∀ (n : Nat) (input : List Char) (pos : Nat), input.length ≤ n →
      ∀ item ∈ lexFrom input pos, item.kind = .ItemIdentifier →
        ∃ d cs, item.value = d :: cs ∧ isLetter d = true := by
  intro n
  induction n with
  | zero =>
    intro input pos h item hitem hkind
    have h0 : input = [] := List.length_eq_zero.mp (Nat.le_zero.mp h)
    subst h0
    simp [lexFrom_nil] at hitem
    subst hitem
    simp at hkind
  | succ m ih =>
    intro input pos h item hitem hkind
    cases input with
    | nil =>
      simp [lexFrom_nil] at hitem
      subst hitem
      simp at hkind
    | cons c rest =>
      have hlen : rest.length ≤ m := by simp at h; omega
      have hd1 : (rest.tail.dropWhile (fun r => !(isEol r))).length ≤ m :=
        le_trans (length_dropWhile_le _ _) (le_trans (length_tail_le _) hlen)
      have hd2 : (rest.dropWhile isEol).length ≤ m :=
        le_trans (length_dropWhile_le _ _) hlen
      have hd3 : (rest.dropWhile isSpace).length ≤ m :=
        le_trans (length_dropWhile_le _ _) hlen
      have hd4 : (rest.dropWhile isAlphaNumeric).length ≤ m :=
        le_trans (length_dropWhile_le _ _) hlen
      have hd5 : (rest.dropWhile isDigit).length ≤ m :=
        le_trans (length_dropWhile_le _ _) hlen
      by_cases c1 : c = '/' ∧ rest.head? = some '/'
      · rw [lexFrom_comment c rest pos c1] at hitem
        exact ih _ _ hd1 item hitem hkind
      · by_cases c2 : isEol c = true
        · rw [lexFrom_eol c rest pos c1 c2] at hitem
          rcases List.mem_cons.mp hitem with hh | hh
          · subst hh; simp at hkind
          · exact ih _ _ hd2 item hh hkind
        · by_cases c3 : isSpace c = true
          · rw [lexFrom_space c rest pos c1 c2 c3] at hitem
            exact ih _ _ hd3 item hitem hkind
          · by_cases c4 : c = '['
            · rw [lexFrom_lbracket c rest pos c1 c2 c3 c4] at hitem
              rcases List.mem_cons.mp hitem with hh | hh
              · subst hh; simp at hkind
              · exact ih rest (pos + 1) hlen item hh hkind
            · by_cases c5 : c = ']'
              · rw [lexFrom_rbracket c rest pos c1 c2 c3 c4 c5] at hitem
                rcases List.mem_cons.mp hitem with hh | hh
                · subst hh; simp at hkind
                · exact ih rest (pos + 1) hlen item hh hkind
              · by_cases c6 : c = '.'
                · rw [lexFrom_dot c rest pos c1 c2 c3 c4 c5 c6] at hitem
                  rcases List.mem_cons.mp hitem with hh | hh
                  · subst hh; simp at hkind
                  · exact ih rest (pos + 1) hlen item hh hkind
                · by_cases c7 : c = ':'
                  · rw [lexFrom_colon c rest pos c1 c2 c3 c4 c5 c6 c7] at hitem
                    rcases List.mem_cons.mp hitem with hh | hh
                    · subst hh; simp at hkind
                    · exact ih rest (pos + 1) hlen item hh hkind
                  · by_cases c8 : isLetter c = true
                    · rw [lexFrom_word c rest pos c1 c2 c3 c4 c5 c6 c7 c8] at hitem
                      rcases List.mem_cons.mp hitem with hh | hh
                      · subst hh
                        exact ⟨c, rest.takeWhile isAlphaNumeric, rfl, c8⟩
                      · exact ih _ _ hd4 item hh hkind
                    · by_cases c9 : isDigit c = true
                      · by_cases cz : 1 < (c :: rest.takeWhile isDigit).length ∧ c = '0'
                        · rw [lexFrom_num_zero c rest pos c1 c2 c3 c4 c5 c6 c7 c8 c9 cz] at hitem
                          simp at hitem
                          subst hitem
                          simp at hkind
                        · by_cases cl :
                            ((rest.dropWhile isDigit).head?.map isLetter).getD false = true
                          · rw [lexFrom_num_letter c rest pos c1 c2 c3 c4 c5 c6 c7 c8 c9 cz cl] at hitem
                            simp at hitem
                            subst hitem
                            simp at hkind
                          · rw [lexFrom_num c rest pos c1 c2 c3 c4 c5 c6 c7 c8 c9 cz cl] at hitem
                            rcases List.mem_cons.mp hitem with hh | hh
                            · subst hh; simp at hkind
                            · exact ih _ _ hd5 item hh hkind
                      · rw [lexFrom_other c rest pos c1 c2 c3 c4 c5 c6 c7 c8 c9] at hitem
                        simp at hitem
                        subst hitem
                        simp at hkind

/-- Emitting one item whose value is the consumed prefix preserves the span
and position invariants. -/
theorem lex_span_cons (input value rest' : List Char) (pos pos' : Nat) (k : ItemKind)
    (hsplit : input = value ++ rest')
    (hpos' : pos' = pos + bytesLen value)
    (hvpos : 0 < bytesLen value)
    (hspan : ∀ item ∈ lexFrom rest' pos', item.kind ≠ .ItemError →
      ∃ a b, rest' = a ++ item.value ++ b ∧ item.pos = pos' + bytesLen a)
    (hmin : ∀ item ∈ lexFrom rest' pos', pos' ≤ item.pos)
    (hchain : List.Chain' (fun x y => x.pos < y.pos) (lexFrom rest' pos')) :
    (∀ item ∈ (⟨k, value, pos⟩ : Item) :: lexFrom rest' pos',
      item.kind ≠ .ItemError →
      ∃ a b, input = a ++ item.value ++ b ∧ item.pos = pos + bytesLen a) ∧
    (∀ item ∈ (⟨k, value, pos⟩ : Item) :: lexFrom rest' pos', pos ≤ item.pos) ∧
    List.Chain' (fun x y => x.pos < y.pos)
      ((⟨k, value, pos⟩ : Item) :: lexFrom rest' pos') := by
  have hple : pos < pos' := by omega
  refine ⟨?_, ?_, ?_⟩
  · intro item hitem hne
    rcases List.mem_cons.mp hitem with hh | hh
    · subst hh
      refine ⟨[], rest', by simpa using hsplit, by simp [bytesLen, utf8Bytes]⟩
    · obtain ⟨a, b, hab, hp⟩ := hspan item hh hne
      refine ⟨value ++ a, b, ?_, ?_⟩
      · rw [hsplit, hab]
        simp
      · rw [hp, hpos', bytesLen_append]
        omega
  · intro item hitem
    rcases List.mem_cons.mp hitem with hh | hh
    · subst hh; exact le_rfl
    · exact le_trans (Nat.le_of_lt hple) (hmin item hh)
  · refine List.chain'_cons'.mpr ⟨?_, hchain⟩
    intro y hy
    have hmem : y ∈ lexFrom rest' pos' := List.mem_of_mem_head? hy
    have h1 : pos' ≤ y.pos := hmin y hmem
    show pos < y.pos
    omega

/-- Skipping a consumed prefix without emitting preserves the span and
position invariants. -/
theorem lex_span_skip (input skip rest' : List Char) (pos pos' : Nat)
    (hsplit : input = skip ++ rest')
    (hpos' : pos' = pos + bytesLen skip)
    (hspan : ∀ item ∈ lexFrom rest' pos', item.kind ≠ .ItemError →
      ∃ a b, rest' = a ++ item.value ++ b ∧ item.pos = pos' + bytesLen a)
    (hmin : ∀ item ∈ lexFrom rest' pos', pos' ≤ item.pos)
    (hchain : List.Chain' (fun x y => x.pos < y.pos) (lexFrom rest' pos')) :
    (∀ item ∈ lexFrom rest' pos', item.kind ≠ .ItemError →
      ∃ a b, input = a ++ item.value ++ b ∧ item.pos = pos + bytesLen a) ∧
    (∀ item ∈ lexFrom rest' pos', pos ≤ item.pos) ∧
    List.Chain' (fun x y => x.pos < y.pos) (lexFrom rest' pos') := by
  refine ⟨?_, ?_, hchain⟩
  · intro item hitem hne
    obtain ⟨a, b, hab, hp⟩ := hspan item hitem hne
    refine ⟨skip ++ a, b, ?_, ?_⟩
    · rw [hsplit, hab]
      simp
    · rw [hp, hpos', bytesLen_append]
      omega
  · intro item hitem
    have := hmin item hitem
    omega

/-- Every non-error item's value is the slice of the input starting at its
recorded byte offset, offsets never precede the scan start, and offsets of
successive items strictly increase. -/
theorem lex_span :
    ∀ (n : Nat) (input : List Char) (pos : Nat), input.length ≤ n →
      (∀ item ∈ lexFrom input pos, item.kind ≠ .ItemError →
        ∃ a b, input = a ++ item.value ++ b ∧ item.pos = pos + bytesLen a) ∧
      (∀ item ∈ lexFrom input pos, pos ≤ item.pos) ∧
      List.Chain' (fun x y => x.pos < y.pos) (lexFrom input pos) := by
  intro n
  induction n with
  | zero =>
    intro input pos h
    have h0 : input = [] := List.length_eq_zero.mp (Nat.le_zero.mp h)
    subst h0
    refine ⟨?_, ?_, ?_⟩
    · intro item hitem _
      simp [lexFrom_nil] at hitem
      subst hitem
      exact ⟨[], [], by simp, by simp [bytesLen, utf8Bytes]⟩
    · intro item hitem
      simp [lexFrom_nil] at hitem
      subst hitem
      exact le_rfl
    · rw [lexFrom_nil]
      exact List.chain'_singleton _
  | succ m ih =>
    intro input pos h
    cases input with
    | nil =>
      refine ⟨?_, ?_, ?_⟩
      · intro item hitem _
        simp [lexFrom_nil] at hitem
        subst hitem
        exact ⟨[], [], by simp, by simp [bytesLen, utf8Bytes]⟩
      · intro item hitem
        simp [lexFrom_nil] at hitem
        subst hitem
        exact le_rfl
      · rw [lexFrom_nil]
        exact List.chain'_singleton _
    | cons c rest =>
      have hlen : rest.length ≤ m := by simp at h; omega
      have hd1 : (rest.tail.dropWhile (fun r => !(isEol r))).length ≤ m :=
        le_trans (length_dropWhile_le _ _) (le_trans (length_tail_le _) hlen)
      have hd2 : (rest.dropWhile isEol).length ≤ m :=
        le_trans (length_dropWhile_le _ _) hlen
      have hd3 : (rest.dropWhile isSpace).length ≤ m :=
        le_trans (length_dropWhile_le _ _) hlen
      have hd4 : (rest.dropWhile isAlphaNumeric).length ≤ m :=
        le_trans (length_dropWhile_le _ _) hlen
      have hd5 : (rest.dropWhile isDigit).length ≤ m :=
        le_trans (length_dropWhile_le _ _) hlen
      by_cases c1 : c = '/' ∧ rest.head? = some '/'
      · obtain ⟨s1, s2, s3⟩ := ih _ _ hd1
        rw [lexFrom_comment c rest pos c1]
        obtain ⟨hc, hh⟩ := c1
        have hrest : rest = '/' :: rest.tail := by
          cases rest with
          | nil => simp at hh
          | cons x t => simp at hh; rw [hh]; rfl
        refine lex_span_skip (c :: rest)
          (c :: '/' :: rest.tail.takeWhile (fun r => !(isEol r)))
          (rest.tail.dropWhile (fun r => !(isEol r))) pos _ ?_ ?_ s1 s2 s3
        · conv_lhs => rw [hrest]
          simp [List.takeWhile_append_dropWhile]
        · subst hc
          have h47 : (charBytes '/').length = 1 := by decide
          rw [bytesLen_cons, bytesLen_cons, h47]
          omega
      · by_cases c2 : isEol c = true
        · obtain ⟨s1, s2, s3⟩ := ih _ _ hd2
          rw [lexFrom_eol c rest pos c1 c2]
          refine lex_span_cons (c :: rest) (c :: rest.takeWhile isEol)
            (rest.dropWhile isEol) pos _ _ ?_ rfl (bytesLen_cons_pos _ _) s1 s2 s3
          simp [List.takeWhile_append_dropWhile]
        · by_cases c3 : isSpace c = true
          · obtain ⟨s1, s2, s3⟩ := ih _ _ hd3
            rw [lexFrom_space c rest pos c1 c2 c3]
            refine lex_span_skip (c :: rest) (c :: rest.takeWhile isSpace)
              (rest.dropWhile isSpace) pos _ ?_ rfl s1 s2 s3
            simp [List.takeWhile_append_dropWhile]
          · by_cases c4 : c = '['
            · obtain ⟨s1, s2, s3⟩ := ih rest (pos + 1) hlen
              rw [lexFrom_lbracket c rest pos c1 c2 c3 c4]
              subst c4
              have hb1 : bytesLen ['['] = 1 := by decide
              refine lex_span_cons ('[' :: rest) ['['] rest pos (pos + 1) _
                rfl (by omega) (by decide) s1 s2 s3
            · by_cases c5 : c = ']'
              · obtain ⟨s1, s2, s3⟩ := ih rest (pos + 1) hlen
                rw [lexFrom_rbracket c rest pos c1 c2 c3 c4 c5]
                subst c5
                have hb1 : bytesLen [']'] = 1 := by decide
                refine lex_span_cons (']' :: rest) [']'] rest pos (pos + 1) _
                  rfl (by omega) (by decide) s1 s2 s3
              · by_cases c6 : c = '.'
                · obtain ⟨s1, s2, s3⟩ := ih rest (pos + 1) hlen
                  rw [lexFrom_dot c rest pos c1 c2 c3 c4 c5 c6]
                  subst c6
                  have hb1 : bytesLen ['.'] = 1 := by decide
                  refine lex_span_cons ('.' :: rest) ['.'] rest pos (pos + 1) _
                    rfl (by omega) (by decide) s1 s2 s3
                · by_cases c7 : c = ':'
                  · obtain ⟨s1, s2, s3⟩ := ih rest (pos + 1) hlen
                    rw [lexFrom_colon c rest pos c1 c2 c3 c4 c5 c6 c7]
                    subst c7
                    have hb1 : bytesLen [':'] = 1 := by decide
                    refine lex_span_cons (':' :: rest) [':'] rest pos (pos + 1) _
                      rfl (by omega) (by decide) s1 s2 s3
                  · by_cases c8 : isLetter c = true
                    · obtain ⟨s1, s2, s3⟩ := ih _ _ hd4
                      rw [lexFrom_word c rest pos c1 c2 c3 c4 c5 c6 c7 c8]
                      refine lex_span_cons (c :: rest)
                        (c :: rest.takeWhile isAlphaNumeric)
                        (rest.dropWhile isAlphaNumeric) pos _ _ ?_ rfl
                        (bytesLen_cons_pos _ _) s1 s2 s3
                      simp [List.takeWhile_append_dropWhile]
                    · by_cases c9 : isDigit c = true
                      · by_cases cz : 1 < (c :: rest.takeWhile isDigit).length ∧ c = '0'
                        · rw [lexFrom_num_zero c rest pos c1 c2 c3 c4 c5 c6 c7 c8 c9 cz]
                          refine ⟨?_, ?_, ?_⟩
                          · intro item hitem hne
                            simp at hitem
                            subst hitem
                            exact absurd rfl hne
                          · intro item hitem
                            simp at hitem
                            subst hitem
                            exact le_rfl
                          · exact List.chain'_singleton _
                        · by_cases cl :
                            ((rest.dropWhile isDigit).head?.map isLetter).getD false = true
                          · rw [lexFrom_num_letter c rest pos c1 c2 c3 c4 c5 c6 c7 c8 c9 cz cl]
                            refine ⟨?_, ?_, ?_⟩
                            · intro item hitem hne
                              simp at hitem
                              subst hitem
                              exact absurd rfl hne
                            · intro item hitem
                              simp at hitem
                              subst hitem
                              exact le_rfl
                            · exact List.chain'_singleton _
                          · obtain ⟨s1, s2, s3⟩ := ih _ _ hd5
                            rw [lexFrom_num c rest pos c1 c2 c3 c4 c5 c6 c7 c8 c9 cz cl]
                            refine lex_span_cons (c :: rest)
                              (c :: rest.takeWhile isDigit)
                              (rest.dropWhile isDigit) pos _ _ ?_ rfl
                              (bytesLen_cons_pos _ _) s1 s2 s3
                            simp [List.takeWhile_append_dropWhile]
                      · rw [lexFrom_other c rest pos c1 c2 c3 c4 c5 c6 c7 c8 c9]
                        refine ⟨?_, ?_, ?_⟩
                        · intro item hitem hne
                          simp at hitem
                          subst hitem
                          exact absurd rfl hne
                        · intro item hitem
                          simp at hitem
                          subst hitem
                          exact le_rfl
                        · exact List.chain'_singleton _

/-! ## Parser invariants.

`rem p` is the part of the lexer stream the parser has not yet accepted (the
lookahead plus the unread items).  `goodStream` is the shape every lexer run
has (by `lex_terminated`): at least one item, the last one end-of-input or
error, all earlier ones neither.  `PStep p q` records what every parsing
operation does to the state: it only appends diagnostics, only drops already
inspected items from the front of the remaining stream — never an `enum`,
`choice` or `message` keyword item, which only the top-level dispatch may
accept — and preserves well-formedness. -/

def rem (p : Parser) : List Item := p.next :: p.stream

def goodStream : List Item → Prop
  | [] => False
  | [i] => i.kind = .ItemEof ∨ i.kind = .ItemError
  | i :: j :: t =>
    (i.kind ≠ .ItemEof ∧ i.kind ≠ .ItemError) ∧ goodStream (j :: t)

def WF (p : Parser) : Prop := goodStream (rem p)

/-- Kinds a parsing operation other than the top-level dispatch may consume. -/
def nonBlock (k : ItemKind) : Prop :=
  k ≠ .ItemEnum ∧ k ≠ .ItemChoice ∧ k ≠ .ItemMessage

def PStep (p q : Parser) : Prop :=
  (∃ es, q.errors = p.errors ++ es) ∧
  (∃ dropped, rem p = dropped ++ rem q ∧ ∀ i ∈ dropped, nonBlock i.kind) ∧
  (WF p → WF q)

theorem goodStream_single (x : Item) :
    goodStream [x] ↔ (x.kind = .ItemEof ∨ x.kind = .ItemError) := by
  simp [goodStream]

theorem goodStream_cons_cons (x y : Item) (t : List Item) :
    goodStream (x :: y :: t) ↔
      (x.kind ≠ .ItemEof ∧ x.kind ≠ .ItemError) ∧ goodStream (y :: t) := by
  simp [goodStream]

theorem goodStream_of_parts :
    ∀ (pre : List Item) (last : Item),
      (last.kind = .ItemEof ∨ last.kind = .ItemError) →
      (∀ i ∈ pre, i.kind ≠ .ItemEof ∧ i.kind ≠ .ItemError) →
      goodStream (pre ++ [last]) := by
  intro pre
  induction pre with
  | nil =>
    intro last h _
    simpa [goodStream_single] using h
  | cons x t ih =>
    intro last h hx
    cases t with
    | nil =>
      rw [List.cons_append, List.nil_append, goodStream_cons_cons]
      exact ⟨hx x (by simp), (goodStream_single last).mpr h⟩
    | cons y t2 =>
      rw [List.cons_append, List.cons_append, goodStream_cons_cons,
        ← List.cons_append]
      exact ⟨hx x (by simp), ih last h (fun i hi => hx i (by simp [hi]))⟩

theorem lex_goodStream (input : List Char) : goodStream (lexItems input) := by
  obtain ⟨pre, last, heq, hterm, hpre⟩ :=
    lex_terminated input.length input 0 le_rfl
  unfold lexItems
  rw [heq]
  exact goodStream_of_parts pre last hterm hpre

theorem PStep.rfl (p : Parser) : PStep p p :=
  ⟨⟨[], by simp⟩, ⟨[], by simp⟩, id⟩

theorem PStep.trans {p q r : Parser} (h1 : PStep p q) (h2 : PStep q r) :
    PStep p r := by
  obtain ⟨⟨es1, he1⟩, ⟨d1, hd1, hnb1⟩, hw1⟩ := h1
  obtain ⟨⟨es2, he2⟩, ⟨d2, hd2, hnb2⟩, hw2⟩ := h2
  refine ⟨⟨es1 ++ es2, by rw [he2, he1, List.append_assoc]⟩,
    ⟨d1 ++ d2, by rw [hd1, hd2, List.append_assoc], ?_⟩,
    fun h => hw2 (hw1 h)⟩
  intro i hi
  rcases List.mem_append.mp hi with h | h
  · exact hnb1 i h
  · exact hnb2 i h

theorem PStep.errors_ne {p q : Parser} (h : PStep p q) (hp : p.errors ≠ []) :
    q.errors ≠ [] := by
  obtain ⟨⟨es, he⟩, _, _⟩ := h
  rw [he]
  simp [hp]

theorem PStep.stream_le {p q : Parser} (h : PStep p q) :
    q.stream.length ≤ p.stream.length := by
  obtain ⟨_, ⟨d, hd, _⟩, _⟩ := h
  have := congrArg List.length hd
  simp [rem] at this
  omega

theorem PStep.rem_subset {p q : Parser} (h : PStep p q) :
    ∀ i ∈ rem q, i ∈ rem p := by
  obtain ⟨_, ⟨d, hd, _⟩, _⟩ := h
  intro i hi
  rw [hd]
  exact List.mem_append.mpr (Or.inr hi)

theorem PStep.hasBlock {p q : Parser} (h : PStep p q)
    (hb : ∃ i ∈ rem p, i.kind = .ItemEnum ∨ i.kind = .ItemChoice ∨
      i.kind = .ItemMessage) :
    ∃ i ∈ rem q, i.kind = .ItemEnum ∨ i.kind = .ItemChoice ∨
      i.kind = .ItemMessage := by
  obtain ⟨_, ⟨d, hd, hnb⟩, _⟩ := h
  obtain ⟨i, hi, hk⟩ := hb
  rw [hd] at hi
  rcases List.mem_append.mp hi with hh | hh
  · have := hnb i hh
    unfold nonBlock at this
    tauto
  · exact ⟨i, hh, hk⟩

/-! ### The primitive cursor operations -/

theorem consume_cases (p : Parser) :
    ((p.next.kind = .ItemEof ∨ p.next.kind = .ItemError) ∧
      consume p = { p with prev := p.next }) ∨
    (p.next.kind ≠ .ItemEof ∧ p.next.kind ≠ .ItemError ∧ p.stream = [] ∧
      consume p = { p with prev := p.next }) ∨
    (∃ i rest, p.next.kind ≠ .ItemEof ∧ p.next.kind ≠ .ItemError ∧
      p.stream = i :: rest ∧
      consume p = { p with prev := p.next, next := i, stream := rest }) := by
  unfold consume
  by_cases h : p.next.kind ≠ .ItemEof ∧ p.next.kind ≠ .ItemError
  · rw [if_pos h]
    cases hs : p.stream with
    | nil => exact Or.inr (Or.inl ⟨h.1, h.2, rfl, rfl⟩)
    | cons i rest => exact Or.inr (Or.inr ⟨i, rest, h.1, h.2, rfl, rfl⟩)
  · rw [if_neg h]
    left
    constructor
    · tauto
    · rfl

theorem consume_pstep (p : Parser) (hnb : nonBlock p.next.kind) :
    PStep p (consume p) := by
  rcases consume_cases p with ⟨_, he⟩ | ⟨_, _, _, he⟩ | ⟨i, rest, _, _, hs, he⟩
  · rw [he]; exact PStep.rfl _
  · rw [he]; exact PStep.rfl _
  · rw [he]
    refine ⟨⟨[], by simp⟩, ⟨[p.next], by simp [rem, hs], by simpa using hnb⟩, ?_⟩
    intro hwf
    unfold WF rem at hwf ⊢
    simp only []
    rw [hs] at hwf
    exact ((goodStream_cons_cons _ _ _).mp hwf).2

theorem itemError_pstep (p : Parser) (it : Item) (m : Option ErrMsg) :
    PStep p (itemError p it m) := by
  unfold itemError
  exact ⟨⟨_, rfl⟩, ⟨[], by simp [rem]⟩, fun h => h⟩

theorem accept_true {k : ItemKind} {p : Parser} (h : (accept k p).2 = true) :
    p.next.kind = k ∧ (accept k p).1 = consume p := by
  unfold accept at h ⊢
  by_cases hk : p.next.kind = k
  · rw [if_pos hk]
    exact ⟨hk, rfl⟩
  · rw [if_neg hk] at h
    simp at h

theorem accept_false {k : ItemKind} {p : Parser} (h : (accept k p).2 = false) :
    (accept k p).1 = p := by
  unfold accept at h ⊢
  by_cases hk : p.next.kind = k
  · rw [if_pos hk] at h
    simp at h
  · rw [if_neg hk]

theorem accept_false_of {k : ItemKind} {p : Parser} (h : p.next.kind ≠ k) :
    accept k p = (p, false) := by
  unfold accept
  rw [if_neg h]

theorem accept_pstep (k : ItemKind) (p : Parser)
    (hk : nonBlock k) : PStep p (accept k p).1 := by
  unfold accept
  by_cases hnk : p.next.kind = k
  · rw [if_pos hnk]
    exact consume_pstep p (hnk ▸ hk)
  · rw [if_neg hnk]
    exact PStep.rfl _

theorem expect_true {k : ItemKind} {p : Parser} (h : (expect k p).2 = true) :
    p.next.kind = k ∧ (expect k p).1 = consume p := by
  unfold expect at h ⊢
  by_cases hk : p.next.kind = k
  · rw [if_pos hk]
    exact ⟨hk, rfl⟩
  · rw [if_neg hk] at h
    simp at h

theorem expect_false {k : ItemKind} {p : Parser} (h : (expect k p).2 = false) :
    (expect k p).1 = itemError p p.next (some (.expected k)) := by
  unfold expect at h ⊢
  by_cases hk : p.next.kind = k
  · rw [if_pos hk] at h
    simp at h
  · rw [if_neg hk]

theorem expect_pstep (k : ItemKind) (p : Parser)
    (hk : nonBlock k) : PStep p (expect k p).1 := by
  unfold expect
  by_cases hnk : p.next.kind = k
  · rw [if_pos hnk]
    exact consume_pstep p (hnk ▸ hk)
  · rw [if_neg hnk]
    exact itemError_pstep p p.next _

theorem acceptM_true {fn : Item → Option ErrMsg} {p : Parser}
    (h : (acceptM fn p).2 = true) :
    fn p.next = none ∧ (acceptM fn p).1 = consume p := by
  unfold acceptM at h ⊢
  cases hfn : fn p.next with
  | some e => rw [hfn] at h; simp at h
  | none => exact ⟨rfl, rfl⟩

theorem acceptM_false {fn : Item → Option ErrMsg} {p : Parser}
    (h : (acceptM fn p).2 = false) : (acceptM fn p).1 = p := by
  unfold acceptM at h ⊢
  cases hfn : fn p.next with
  | some e => rfl
  | none => rw [hfn] at h; simp at h

theorem acceptM_pstep (fn : Item → Option ErrMsg) (p : Parser)
    (hfn : ∀ it : Item, fn it = none → nonBlock it.kind) :
    PStep p (acceptM fn p).1 := by
  unfold acceptM
  cases hfnp : fn p.next with
  | some e => exact PStep.rfl _
  | none => exact consume_pstep p (hfn _ hfnp)

theorem expectM_true {fn : Item → Option ErrMsg} {p : Parser}
    (h : (expectM fn p).2 = true) :
    fn p.next = none ∧ (expectM fn p).1 = consume p := by
  unfold expectM at h ⊢
  cases hfn : fn p.next with
  | some e => rw [hfn] at h; simp at h
  | none => exact ⟨rfl, rfl⟩

theorem expectM_false {fn : Item → Option ErrMsg} {p : Parser}
    (h : (expectM fn p).2 = false) :
    ∃ e, fn p.next = some e ∧
      (expectM fn p).1 = itemError p p.next (some e) := by
  unfold expectM at h ⊢
  cases hfn : fn p.next with
  | some e => exact ⟨e, rfl, rfl⟩
  | none => rw [hfn] at h; simp at h

theorem expectM_pstep (fn : Item → Option ErrMsg) (p : Parser)
    (hfn : ∀ it : Item, fn it = none → nonBlock it.kind) :
    PStep p (expectM fn p).1 := by
  unfold expectM
  cases hfnp : fn p.next with
  | some e => exact itemError_pstep p p.next _
  | none => exact consume_pstep p (hfn _ hfnp)

/-! ### The match functions consume only identifier or basic-type items -/

theorem matchBig_none {it : Item} (h : matchBigIdentifier it = none) :
    it.kind = .ItemIdentifier := by
  unfold matchBigIdentifier at h
  by_cases hk : it.kind = .ItemIdentifier
  · exact hk
  · rw [if_neg hk] at h
    simp at h

theorem matchLittle_none {it : Item} (h : matchLittleIdentifier it = none) :
    it.kind = .ItemIdentifier := by
  unfold matchLittleIdentifier at h
  by_cases hk : it.kind = .ItemIdentifier
  · exact hk
  · rw [if_neg hk] at h
    simp at h

theorem matchBasic_none {it : Item} (h : matchBasicType it = none) :
    it.kind.isBasicType = true := by
  unfold matchBasicType at h
  by_cases hk : it.kind.isBasicType
  · exact hk
  · rw [if_neg hk] at h
    simp at h

theorem matchBig_nonBlock : ∀ it : Item, matchBigIdentifier it = none →
    nonBlock it.kind := by
  intro it h
  rw [matchBig_none h]
  exact ⟨by decide, by decide, by decide⟩

theorem matchLittle_nonBlock : ∀ it : Item, matchLittleIdentifier it = none →
    nonBlock it.kind := by
  intro it h
  rw [matchLittle_none h]
  exact ⟨by decide, by decide, by decide⟩

theorem basic_nonBlock {k : ItemKind} (h : k.isBasicType = true) :
    nonBlock k := by
  refine ⟨?_, ?_, ?_⟩ <;> rintro rfl <;> exact absurd h (by decide)

theorem matchBasic_nonBlock : ∀ it : Item, matchBasicType it = none →
    nonBlock it.kind :=
  fun _ h => basic_nonBlock (matchBasic_none h)

/-! ### Composite productions are `PStep`s -/

theorem nonBlock_Identifier : nonBlock .ItemIdentifier := ⟨by decide, by decide, by decide⟩
theorem nonBlock_Number : nonBlock .ItemNumber := ⟨by decide, by decide, by decide⟩
theorem nonBlock_Colon : nonBlock .ItemColon := ⟨by decide, by decide, by decide⟩
theorem nonBlock_Eol : nonBlock .ItemEol := ⟨by decide, by decide, by decide⟩
theorem nonBlock_Dot : nonBlock .ItemDot := ⟨by decide, by decide, by decide⟩
theorem nonBlock_LBracket : nonBlock .ItemLeftBracket := ⟨by decide, by decide, by decide⟩
theorem nonBlock_RBracket : nonBlock .ItemRightBracket := ⟨by decide, by decide, by decide⟩
theorem nonBlock_End : nonBlock .ItemEnd := ⟨by decide, by decide, by decide⟩
theorem nonBlock_Eof : nonBlock .ItemEof := ⟨by decide, by decide, by decide⟩

theorem setPkg_pstep (q : Parser) (v : List Char) :
    PStep q { q with pkg := v } :=
  ⟨⟨[], by simp⟩, ⟨[], by simp [rem]⟩, fun h => h⟩

theorem parseChoiceIdentifier_pstep (p : Parser) :
    PStep p (parseChoiceIdentifier p).1 := by
  have h1 := expect_pstep .ItemIdentifier p nonBlock_Identifier
  have h2 := accept_pstep .ItemDot (expect .ItemIdentifier p).1 nonBlock_Dot
  simp only [parseChoiceIdentifier]
  split
  · exact (h1.trans h2).trans (expectM_pstep _ _ matchBig_nonBlock)
  · split
    · exact (h1.trans h2).trans (itemError_pstep _ _ _)
    · exact h1.trans h2

theorem parseChoiceField_pstep (p : Parser) : PStep p (parseChoiceField p) := by
  have e1 := expect_pstep .ItemNumber p nonBlock_Number
  have e2 := expect_pstep .ItemColon (expect .ItemNumber p).1 nonBlock_Colon
  have e3 := parseChoiceIdentifier_pstep
    (expect .ItemColon (expect .ItemNumber p).1).1
  have e4 := expect_pstep .ItemEol
    (parseChoiceIdentifier (expect .ItemColon (expect .ItemNumber p).1).1).1
    nonBlock_Eol
  simp only [parseChoiceField]
  split
  · split
    · split
      · exact ((e1.trans e2).trans e3).trans e4
      · exact (e1.trans e2).trans e3
    · exact e1.trans e2
  · exact e1

theorem parseChoiceField_pstep_tail (p : Parser) :
    PStep (expect .ItemNumber p).1 (parseChoiceField p) := by
  have e2 := expect_pstep .ItemColon (expect .ItemNumber p).1 nonBlock_Colon
  have e3 := parseChoiceIdentifier_pstep
    (expect .ItemColon (expect .ItemNumber p).1).1
  have e4 := expect_pstep .ItemEol
    (parseChoiceIdentifier (expect .ItemColon (expect .ItemNumber p).1).1).1
    nonBlock_Eol
  simp only [parseChoiceField]
  split
  · split
    · split
      · exact (e2.trans e3).trans e4
      · exact e2.trans e3
    · exact e2
  · exact PStep.rfl _

theorem parseEnumField_pstep (p : Parser) : PStep p (parseEnumField p) := by
  have e1 := expect_pstep .ItemNumber p nonBlock_Number
  have e2 := expect_pstep .ItemColon (expect .ItemNumber p).1 nonBlock_Colon
  have e3 := expectM_pstep matchBigIdentifier
    (expect .ItemColon (expect .ItemNumber p).1).1 matchBig_nonBlock
  have e4 := expect_pstep .ItemEol
    (expectM matchBigIdentifier (expect .ItemColon (expect .ItemNumber p).1).1).1
    nonBlock_Eol
  simp only [parseEnumField]
  split
  · split
    · split
      · exact ((e1.trans e2).trans e3).trans e4
      · exact (e1.trans e2).trans e3
    · exact e1.trans e2
  · exact e1

theorem parseEnumField_pstep_tail (p : Parser) :
    PStep (expect .ItemNumber p).1 (parseEnumField p) := by
  have e2 := expect_pstep .ItemColon (expect .ItemNumber p).1 nonBlock_Colon
  have e3 := expectM_pstep matchBigIdentifier
    (expect .ItemColon (expect .ItemNumber p).1).1 matchBig_nonBlock
  have e4 := expect_pstep .ItemEol
    (expectM matchBigIdentifier (expect .ItemColon (expect .ItemNumber p).1).1).1
    nonBlock_Eol
  simp only [parseEnumField]
  split
  · split
    · split
      · exact (e2.trans e3).trans e4
      · exact e2.trans e3
    · exact e2
  · exact PStep.rfl _

theorem parseArray_pstep (p : Parser) : PStep p (parseArray p).1 := by
  have a1 := accept_pstep .ItemLeftBracket p nonBlock_LBracket
  have a2 := accept_pstep .ItemNumber (accept .ItemLeftBracket p).1 nonBlock_Number
  have a3 := expect_pstep .ItemRightBracket
    (accept .ItemNumber (accept .ItemLeftBracket p).1).1 nonBlock_RBracket
  simp only [parseArray]
  split
  · exact (a1.trans a2).trans a3
  · exact a1

theorem parseTypeIdentifier_pstep (p : Parser) :
    PStep p (parseTypeIdentifier p).1 := by
  have a1 := acceptM_pstep matchBasicType p matchBasic_nonBlock
  have a2 := parseChoiceIdentifier_pstep (acceptM matchBasicType p).1
  simp only [parseTypeIdentifier]
  split
  · exact a1
  · exact a1.trans a2

theorem parseMessageField_pstep (p : Parser) : PStep p (parseMessageField p) := by
  have e1 := expect_pstep .ItemNumber p nonBlock_Number
  have e2 := expect_pstep .ItemColon (expect .ItemNumber p).1 nonBlock_Colon
  have e3 := expectM_pstep matchLittleIdentifier
    (expect .ItemColon (expect .ItemNumber p).1).1 matchLittle_nonBlock
  have e4 := parseArray_pstep
    (expectM matchLittleIdentifier (expect .ItemColon (expect .ItemNumber p).1).1).1
  have e5 := parseTypeIdentifier_pstep
    (parseArray (expectM matchLittleIdentifier
      (expect .ItemColon (expect .ItemNumber p).1).1).1).1
  have e6 := expect_pstep .ItemEol
    (parseTypeIdentifier (parseArray (expectM matchLittleIdentifier
      (expect .ItemColon (expect .ItemNumber p).1).1).1).1).1 nonBlock_Eol
  simp only [parseMessageField]
  split
  · split
    · split
      · split
        · split
          · exact ((((e1.trans e2).trans e3).trans e4).trans e5).trans e6
          · exact (((e1.trans e2).trans e3).trans e4).trans e5
        · exact ((e1.trans e2).trans e3).trans e4
      · exact (e1.trans e2).trans e3
    · exact e1.trans e2
  · exact e1

theorem parseMessageField_pstep_tail (p : Parser) :
    PStep (expect .ItemNumber p).1 (parseMessageField p) := by
  have e2 := expect_pstep .ItemColon (expect .ItemNumber p).1 nonBlock_Colon
  have e3 := expectM_pstep matchLittleIdentifier
    (expect .ItemColon (expect .ItemNumber p).1).1 matchLittle_nonBlock
  have e4 := parseArray_pstep
    (expectM matchLittleIdentifier (expect .ItemColon (expect .ItemNumber p).1).1).1
  have e5 := parseTypeIdentifier_pstep
    (parseArray (expectM matchLittleIdentifier
      (expect .ItemColon (expect .ItemNumber p).1).1).1).1
  have e6 := expect_pstep .ItemEol
    (parseTypeIdentifier (parseArray (expectM matchLittleIdentifier
      (expect .ItemColon (expect .ItemNumber p).1).1).1).1).1 nonBlock_Eol
  simp only [parseMessageField]
  split
  · split
    · split
      · split
        · split
          · exact (((e2.trans e3).trans e4).trans e5).trans e6
          · exact ((e2.trans e3).trans e4).trans e5
        · exact (e2.trans e3).trans e4
      · exact e2.trans e3
    · exact e2
  · exact PStep.rfl _

theorem parsePackage_pstep (p : Parser) : PStep p (parsePackage p) := by
  have e1 := expect_pstep .ItemIdentifier p nonBlock_Identifier
  have e2 := setPkg_pstep (expect .ItemIdentifier p).1
    (expect .ItemIdentifier p).1.prev.value
  have e3 := expect_pstep .ItemEol
    { (expect .ItemIdentifier p).1 with
        pkg := (expect .ItemIdentifier p).1.prev.value } nonBlock_Eol
  simp only [parsePackage]
  split
  · exact (e1.trans e2).trans e3
  · exact e1

theorem parseType_pstep (p : Parser) : PStep p (parseType p) := by
  have e1 := expectM_pstep matchBigIdentifier p matchBig_nonBlock
  have e2 := parseArray_pstep (expectM matchBigIdentifier p).1
  have e3 := expectM_pstep matchBasicType
    (parseArray (expectM matchBigIdentifier p).1).1 matchBasic_nonBlock
  have e4 := expect_pstep .ItemEol
    (expectM matchBasicType (parseArray (expectM matchBigIdentifier p).1).1).1
    nonBlock_Eol
  simp only [parseType]
  split
  · split
    · split
      · exact ((e1.trans e2).trans e3).trans e4
      · exact (e1.trans e2).trans e3
    · exact e1.trans e2
  · exact e1

/-! ### Progress: a field parse from a well-formed state either records a
diagnostic or consumes at least one stream item -/

theorem WF_stream_ne (p : Parser) (hwf : WF p)
    (h1 : p.next.kind ≠ .ItemEof) (h2 : p.next.kind ≠ .ItemError) :
    p.stream ≠ [] := by
  intro hs
  unfold WF rem at hwf
  rw [hs] at hwf
  rcases (goodStream_single _).mp hwf with h | h
  · exact h1 h
  · exact h2 h

theorem consume_pop (p : Parser) (hwf : WF p)
    (h1 : p.next.kind ≠ .ItemEof) (h2 : p.next.kind ≠ .ItemError) :
    (consume p).stream.length < p.stream.length := by
  rcases consume_cases p with ⟨hp, _⟩ | ⟨_, _, hs, _⟩ | ⟨i, rest, _, _, hs, he⟩
  · rcases hp with hp | hp
    · exact absurd hp h1
    · exact absurd hp h2
  · exact absurd hs (WF_stream_ne p hwf h1 h2)
  · rw [he, hs]
    simp

theorem consume_WF (p : Parser) (hwf : WF p) : WF (consume p) := by
  rcases consume_cases p with ⟨_, he⟩ | ⟨_, _, _, he⟩ | ⟨i, rest, _, _, hs, he⟩ <;>
    rw [he]
  · exact hwf
  · exact hwf
  · unfold WF rem at hwf ⊢
    simp only []
    rw [hs] at hwf
    exact ((goodStream_cons_cons _ _ _).mp hwf).2

theorem consume_rem_subset (p : Parser) :
    ∀ i ∈ rem (consume p), i ∈ rem p := by
  rcases consume_cases p with ⟨_, he⟩ | ⟨_, _, _, he⟩ | ⟨i, rest, _, _, hs, he⟩ <;>
    rw [he] <;> intro j hj
  · exact hj
  · exact hj
  · unfold rem at hj ⊢
    simp only [] at hj
    rw [hs]
    simp at hj ⊢
    tauto

theorem expect_progress (k : ItemKind) (p : Parser) (hwf : WF p)
    (hk1 : k ≠ .ItemEof) (hk2 : k ≠ .ItemError) (q : Parser)
    (htail : PStep (expect k p).1 q) :
    (∃ e es, q.errors = p.errors ++ e :: es) ∨
      q.stream.length < p.stream.length := by
  cases hb : (expect k p).2 with
  | false =>
    left
    have he := expect_false hb
    obtain ⟨⟨es, hes⟩, _, _⟩ := htail
    rw [he] at hes
    unfold itemError at hes
    simp at hes
    exact ⟨_, es, hes⟩
  | true =>
    right
    obtain ⟨hk, he⟩ := expect_true hb
    have hlt : (consume p).stream.length < p.stream.length :=
      consume_pop p hwf (by rw [hk]; exact hk1) (by rw [hk]; exact hk2)
    have hle := htail.stream_le
    rw [he] at hle
    omega

theorem parseEnumField_progress (p : Parser) (hwf : WF p) :
    (∃ e es, (parseEnumField p).errors = p.errors ++ e :: es) ∨
      (parseEnumField p).stream.length < p.stream.length :=
  expect_progress .ItemNumber p hwf (by decide) (by decide) _
    (parseEnumField_pstep_tail p)

theorem parseChoiceField_progress (p : Parser) (hwf : WF p) :
    (∃ e es, (parseChoiceField p).errors = p.errors ++ e :: es) ∨
      (parseChoiceField p).stream.length < p.stream.length :=
  expect_progress .ItemNumber p hwf (by decide) (by decide) _
    (parseChoiceField_pstep_tail p)

theorem parseMessageField_progress (p : Parser) (hwf : WF p) :
    (∃ e es, (parseMessageField p).errors = p.errors ++ e :: es) ∨
      (parseMessageField p).stream.length < p.stream.length :=
  expect_progress .ItemNumber p hwf (by decide) (by decide) _
    (parseMessageField_pstep_tail p)

/-! ### Loop lemmas: each body loop is a `PStep`, cannot run out of fuel from
a well-formed state, and from a stream with no `end` item always exits with a
recorded diagnostic. -/

theorem ok_itemError (p : Parser) (it : Item) (m : Option ErrMsg) :
    ok (itemError p it m) = false := by
  simp [ok, itemError, List.isEmpty_iff]

theorem parseEnumLoop_pstep :
    ∀ (fuel : Nat) (p q : Parser), parseEnumLoop fuel p = some q → PStep p q := by
  intro fuel
  induction fuel with
  | zero => intro p q h; simp [parseEnumLoop] at h
  | succ f ih =>
    intro p q h
    simp only [parseEnumLoop] at h
    split at h
    · cases h
      exact PStep.rfl _
    · split at h
      · cases h
        exact accept_pstep .ItemEnd p nonBlock_End
      · rename_i hok hend
        have h0 : (accept .ItemEnd p).1 = p := accept_false (by simpa using hend)
        rw [h0] at h
        exact (parseEnumField_pstep p).trans (ih _ _ h)

theorem parseEnumLoop_some :
    ∀ (fuel : Nat) (p : Parser), WF p → p.stream.length + 2 ≤ fuel →
      parseEnumLoop fuel p ≠ none := by
  intro fuel
  induction fuel with
  | zero => intro p _ hf; omega
  | succ f ih =>
    intro p hwf hf
    simp only [parseEnumLoop]
    split
    · simp
    · split
      · simp
      · rename_i hok hend
        have h0 : (accept .ItemEnd p).1 = p := accept_false (by simpa using hend)
        rw [h0]
        rcases parseEnumField_progress p hwf with ⟨e, es, herr⟩ | hlt
        · have hne : (parseEnumField p).errors ≠ [] := by rw [herr]; simp
          have hoke : ok (parseEnumField p) = false := by
            simp [ok, List.isEmpty_iff, hne]
          cases f with
          | zero => omega
          | succ g =>
            simp only [parseEnumLoop, hoke]
            simp
        · have hwf' : WF (parseEnumField p) := (parseEnumField_pstep p).2.2 hwf
          exact ih _ hwf' (by omega)

theorem parseEnumLoop_noEnd :
    ∀ (fuel : Nat) (p q : Parser), parseEnumLoop fuel p = some q →
      (∀ i ∈ rem p, i.kind ≠ .ItemEnd) → ok q = false := by
  intro fuel
  induction fuel with
  | zero => intro p q h _; simp [parseEnumLoop] at h
  | succ f ih =>
    intro p q h hnoend
    simp only [parseEnumLoop] at h
    split at h
    · rename_i hok
      cases h
      simpa using hok
    · split at h
      · rename_i _ hend
        obtain ⟨hk, _⟩ := accept_true hend
        exact absurd hk (hnoend p.next (by simp [rem]))
      · rename_i _ hend
        have h0 : (accept .ItemEnd p).1 = p := accept_false (by simpa using hend)
        rw [h0] at h
        refine ih _ _ h ?_
        intro i hi
        exact hnoend i ((parseEnumField_pstep p).rem_subset i hi)

theorem parseEnum_pstep {p q : Parser} (h : parseEnum p = some q) :
    PStep p q := by
  have e1 := expectM_pstep matchBigIdentifier p matchBig_nonBlock
  have e2 := expect_pstep .ItemEol (expectM matchBigIdentifier p).1 nonBlock_Eol
  simp only [parseEnum] at h
  split at h
  · split at h
    · exact (e1.trans e2).trans (parseEnumLoop_pstep _ _ _ h)
    · cases h
      exact e1.trans e2
  · cases h
    exact e1

theorem parseEnum_some (p : Parser) (hwf : WF p) : parseEnum p ≠ none := by
  have e1 := expectM_pstep matchBigIdentifier p matchBig_nonBlock
  have e2 := expect_pstep .ItemEol (expectM matchBigIdentifier p).1 nonBlock_Eol
  simp only [parseEnum]
  split
  · split
    · exact parseEnumLoop_some _ _ ((e1.trans e2).2.2 hwf) le_rfl
    · simp
  · simp

theorem parseEnum_noEnd {p q : Parser} (h : parseEnum p = some q)
    (hnoend : ∀ i ∈ rem p, i.kind ≠ .ItemEnd) : ok q = false := by
  have e1 := expectM_pstep matchBigIdentifier p matchBig_nonBlock
  have e2 := expect_pstep .ItemEol (expectM matchBigIdentifier p).1 nonBlock_Eol
  simp only [parseEnum] at h
  split at h
  · rename_i hbig
    split at h
    · refine parseEnumLoop_noEnd _ _ _ h ?_
      intro i hi
      exact hnoend i ((e1.trans e2).rem_subset i hi)
    · rename_i heol
      cases h
      obtain hf := expect_false (by simpa using heol)
      rw [hf]
      exact ok_itemError _ _ _
  · rename_i hbig
    cases h
    obtain ⟨e, _, hfe⟩ := expectM_false (by simpa using hbig)
    rw [hfe]
    exact ok_itemError _ _ _


theorem parseChoiceLoop_pstep :
    ∀ (fuel : Nat) (p q : Parser), parseChoiceLoop fuel p = some q → PStep p q := by
  intro fuel
  induction fuel with
  | zero => intro p q h; simp [parseChoiceLoop] at h
  | succ f ih =>
    intro p q h
    simp only [parseChoiceLoop] at h
    split at h
    · cases h
      exact PStep.rfl _
    · split at h
      · cases h
        exact accept_pstep .ItemEnd p nonBlock_End
      · rename_i hok hend
        have h0 : (accept .ItemEnd p).1 = p := accept_false (by simpa using hend)
        rw [h0] at h
        exact (parseChoiceField_pstep p).trans (ih _ _ h)

theorem parseChoiceLoop_some :
    ∀ (fuel : Nat) (p : Parser), WF p → p.stream.length + 2 ≤ fuel →
      parseChoiceLoop fuel p ≠ none := by
  intro fuel
  induction fuel with
  | zero => intro p _ hf; omega
  | succ f ih =>
    intro p hwf hf
    simp only [parseChoiceLoop]
    split
    · simp
    · split
      · simp
      · rename_i hok hend
        have h0 : (accept .ItemEnd p).1 = p := accept_false (by simpa using hend)
        rw [h0]
        rcases parseChoiceField_progress p hwf with ⟨e, es, herr⟩ | hlt
        · have hne : (parseChoiceField p).errors ≠ [] := by rw [herr]; simp
          have hoke : ok (parseChoiceField p) = false := by
            simp [ok, List.isEmpty_iff, hne]
          cases f with
          | zero => omega
          | succ g =>
            simp only [parseChoiceLoop, hoke]
            simp
        · have hwf' : WF (parseChoiceField p) := (parseChoiceField_pstep p).2.2 hwf
          exact ih _ hwf' (by omega)

theorem parseChoiceLoop_noEnd :
    ∀ (fuel : Nat) (p q : Parser), parseChoiceLoop fuel p = some q →
      (∀ i ∈ rem p, i.kind ≠ .ItemEnd) → ok q = false := by
  intro fuel
  induction fuel with
  | zero => intro p q h _; simp [parseChoiceLoop] at h
  | succ f ih =>
    intro p q h hnoend
    simp only [parseChoiceLoop] at h
    split at h
    · rename_i hok
      cases h
      simpa using hok
    · split at h
      · rename_i _ hend
        obtain ⟨hk, _⟩ := accept_true hend
        exact absurd hk (hnoend p.next (by simp [rem]))
      · rename_i _ hend
        have h0 : (accept .ItemEnd p).1 = p := accept_false (by simpa using hend)
        rw [h0] at h
        refine ih _ _ h ?_
        intro i hi
        exact hnoend i ((parseChoiceField_pstep p).rem_subset i hi)

theorem parseChoice_pstep {p q : Parser} (h : parseChoice p = some q) :
    PStep p q := by
  have e1 := expectM_pstep matchBigIdentifier p matchBig_nonBlock
  have e2 := expect_pstep .ItemEol (expectM matchBigIdentifier p).1 nonBlock_Eol
  simp only [parseChoice] at h
  split at h
  · split at h
    · exact (e1.trans e2).trans (parseChoiceLoop_pstep _ _ _ h)
    · cases h
      exact e1.trans e2
  · cases h
    exact e1

theorem parseChoice_some (p : Parser) (hwf : WF p) : parseChoice p ≠ none := by
  have e1 := expectM_pstep matchBigIdentifier p matchBig_nonBlock
  have e2 := expect_pstep .ItemEol (expectM matchBigIdentifier p).1 nonBlock_Eol
  simp only [parseChoice]
  split
  · split
    · exact parseChoiceLoop_some _ _ ((e1.trans e2).2.2 hwf) le_rfl
    · simp
  · simp

theorem parseChoice_noEnd {p q : Parser} (h : parseChoice p = some q)
    (hnoend : ∀ i ∈ rem p, i.kind ≠ .ItemEnd) : ok q = false := by
  have e1 := expectM_pstep matchBigIdentifier p matchBig_nonBlock
  have e2 := expect_pstep .ItemEol (expectM matchBigIdentifier p).1 nonBlock_Eol
  simp only [parseChoice] at h
  split at h
  · rename_i hbig
    split at h
    · refine parseChoiceLoop_noEnd _ _ _ h ?_
      intro i hi
      exact hnoend i ((e1.trans e2).rem_subset i hi)
    · rename_i heol
      cases h
      obtain hf := expect_false (by simpa using heol)
      rw [hf]
      exact ok_itemError _ _ _
  · rename_i hbig
    cases h
    obtain ⟨e, _, hfe⟩ := expectM_false (by simpa using hbig)
    rw [hfe]
    exact ok_itemError _ _ _


theorem parseMessageLoop_pstep :
    ∀ (fuel : Nat) (p q : Parser), parseMessageLoop fuel p = some q → PStep p q := by
  intro fuel
  induction fuel with
  | zero => intro p q h; simp [parseMessageLoop] at h
  | succ f ih =>
    intro p q h
    simp only [parseMessageLoop] at h
    split at h
    · cases h
      exact PStep.rfl _
    · split at h
      · cases h
        exact accept_pstep .ItemEnd p nonBlock_End
      · rename_i hok hend
        have h0 : (accept .ItemEnd p).1 = p := accept_false (by simpa using hend)
        rw [h0] at h
        exact (parseMessageField_pstep p).trans (ih _ _ h)

theorem parseMessageLoop_some :
    ∀ (fuel : Nat) (p : Parser), WF p → p.stream.length + 2 ≤ fuel →
      parseMessageLoop fuel p ≠ none := by
  intro fuel
  induction fuel with
  | zero => intro p _ hf; omega
  | succ f ih =>
    intro p hwf hf
    simp only [parseMessageLoop]
    split
    · simp
    · split
      · simp
      · rename_i hok hend
        have h0 : (accept .ItemEnd p).1 = p := accept_false (by simpa using hend)
        rw [h0]
        rcases parseMessageField_progress p hwf with ⟨e, es, herr⟩ | hlt
        · have hne : (parseMessageField p).errors ≠ [] := by rw [herr]; simp
          have hoke : ok (parseMessageField p) = false := by
            simp [ok, List.isEmpty_iff, hne]
          cases f with
          | zero => omega
          | succ g =>
            simp only [parseMessageLoop, hoke]
            simp
        · have hwf' : WF (parseMessageField p) := (parseMessageField_pstep p).2.2 hwf
          exact ih _ hwf' (by omega)

theorem parseMessageLoop_noEnd :
    ∀ (fuel : Nat) (p q : Parser), parseMessageLoop fuel p = some q →
      (∀ i ∈ rem p, i.kind ≠ .ItemEnd) → ok q = false := by
  intro fuel
  induction fuel with
  | zero => intro p q h _; simp [parseMessageLoop] at h
  | succ f ih =>
    intro p q h hnoend
    simp only [parseMessageLoop] at h
    split at h
    · rename_i hok
      cases h
      simpa using hok
    · split at h
      · rename_i _ hend
        obtain ⟨hk, _⟩ := accept_true hend
        exact absurd hk (hnoend p.next (by simp [rem]))
      · rename_i _ hend
        have h0 : (accept .ItemEnd p).1 = p := accept_false (by simpa using hend)
        rw [h0] at h
        refine ih _ _ h ?_
        intro i hi
        exact hnoend i ((parseMessageField_pstep p).rem_subset i hi)

theorem parseMessage_pstep {p q : Parser} (h : parseMessage p = some q) :
    PStep p q := by
  have e1 := expectM_pstep matchBigIdentifier p matchBig_nonBlock
  have e2 := expect_pstep .ItemEol (expectM matchBigIdentifier p).1 nonBlock_Eol
  simp only [parseMessage] at h
  split at h
  · split at h
    · exact (e1.trans e2).trans (parseMessageLoop_pstep _ _ _ h)
    · cases h
      exact e1.trans e2
  · cases h
    exact e1

theorem parseMessage_some (p : Parser) (hwf : WF p) : parseMessage p ≠ none := by
  have e1 := expectM_pstep matchBigIdentifier p matchBig_nonBlock
  have e2 := expect_pstep .ItemEol (expectM matchBigIdentifier p).1 nonBlock_Eol
  simp only [parseMessage]
  split
  · split
    · exact parseMessageLoop_some _ _ ((e1.trans e2).2.2 hwf) le_rfl
    · simp
  · simp

theorem parseMessage_noEnd {p q : Parser} (h : parseMessage p = some q)
    (hnoend : ∀ i ∈ rem p, i.kind ≠ .ItemEnd) : ok q = false := by
  have e1 := expectM_pstep matchBigIdentifier p matchBig_nonBlock
  have e2 := expect_pstep .ItemEol (expectM matchBigIdentifier p).1 nonBlock_Eol
  simp only [parseMessage] at h
  split at h
  · rename_i hbig
    split at h
    · refine parseMessageLoop_noEnd _ _ _ h ?_
      intro i hi
      exact hnoend i ((e1.trans e2).rem_subset i hi)
    · rename_i heol
      cases h
      obtain hf := expect_false (by simpa using heol)
      rw [hf]
      exact ok_itemError _ _ _
  · rename_i hbig
    cases h
    obtain ⟨e, _, hfe⟩ := expectM_false (by simpa using hbig)
    rw [hfe]
    exact ok_itemError _ _ _


/-! ### The top-level dispatch loop -/

theorem parseRootLoop_notok :
    ∀ (fuel : Nat) (p q : Parser), ok p = false →
      parseRootLoop fuel p = some q → q = p := by
  intro fuel p q hok h
  cases fuel with
  | zero => simp [parseRootLoop] at h
  | succ f =>
    rw [parseRootLoop.eq_2, hok] at h
    simp at h
    exact h.symm

theorem WF_eof_stream_nil (p : Parser) (hwf : WF p)
    (h : p.next.kind = .ItemEof) : p.stream = [] := by
  cases hs : p.stream with
  | nil => rfl
  | cons j t =>
    unfold WF rem at hwf
    rw [hs] at hwf
    have := ((goodStream_cons_cons _ _ _).mp hwf).1
    exact absurd h this.1

theorem parseRootLoop_some :
    ∀ (fuel : Nat) (p : Parser), WF p → p.stream.length + 2 ≤ fuel →
      parseRootLoop fuel p ≠ none := by
  intro fuel
  induction fuel with
  | zero => intro p _ hf; omega
  | succ f ih =>
    intro p hwf hf
    simp only [parseRootLoop]
    split
    · simp
    · split
      · -- Eol accepted
        rename_i hok hacc
        obtain ⟨hk, he⟩ := accept_true hacc
        rw [he]
        have hlt := consume_pop p hwf (by rw [hk]; decide) (by rw [hk]; decide)
        have hwf' := (consume_pstep p (hk ▸ nonBlock_Eol)).2.2 hwf
        exact ih _ hwf' (by omega)
      · split
        · -- Choice accepted
          rename_i hok hacc1 hacc
          obtain ⟨hk, he⟩ := accept_true hacc
          rw [he]
          have hlt := consume_pop p hwf (by rw [hk]; decide) (by rw [hk]; decide)
          have hwf' := consume_WF p hwf
          cases hpc : parseChoice (consume p) with
          | none => exact absurd hpc (parseChoice_some _ hwf')
          | some p2 =>
            have hps := parseChoice_pstep hpc
            simp only [Option.bind]
            exact ih _ (hps.2.2 hwf') (by have := hps.stream_le; omega)
        · split
          · -- Enum accepted
            rename_i hok hacc1 hacc2 hacc
            obtain ⟨hk, he⟩ := accept_true hacc
            rw [he]
            have hlt := consume_pop p hwf (by rw [hk]; decide) (by rw [hk]; decide)
            have hwf' := consume_WF p hwf
            cases hpc : parseEnum (consume p) with
            | none => exact absurd hpc (parseEnum_some _ hwf')
            | some p2 =>
              have hps := parseEnum_pstep hpc
              simp only [Option.bind]
              exact ih _ (hps.2.2 hwf') (by have := hps.stream_le; omega)
          · split
            · -- Message accepted
              rename_i hok hacc1 hacc2 hacc3 hacc
              obtain ⟨hk, he⟩ := accept_true hacc
              rw [he]
              have hlt := consume_pop p hwf (by rw [hk]; decide) (by rw [hk]; decide)
              have hwf' := consume_WF p hwf
              cases hpc : parseMessage (consume p) with
              | none => exact absurd hpc (parseMessage_some _ hwf')
              | some p2 =>
                have hps := parseMessage_pstep hpc
                simp only [Option.bind]
                exact ih _ (hps.2.2 hwf') (by have := hps.stream_le; omega)
            · split
              · -- Package accepted
                rename_i hok hacc1 hacc2 hacc3 hacc4 hacc
                obtain ⟨hk, he⟩ := accept_true hacc
                rw [he]
                have hlt := consume_pop p hwf (by rw [hk]; decide) (by rw [hk]; decide)
                have hwf' := (consume_pstep p
                  (by rw [hk]; exact ⟨by decide, by decide, by decide⟩)).2.2 hwf
                have hps := parsePackage_pstep (consume p)
                exact ih _ (hps.2.2 hwf') (by have := hps.stream_le; omega)
              · split
                · -- Type accepted
                  rename_i hok hacc1 hacc2 hacc3 hacc4 hacc5 hacc
                  obtain ⟨hk, he⟩ := accept_true hacc
                  rw [he]
                  have hlt := consume_pop p hwf (by rw [hk]; decide) (by rw [hk]; decide)
                  have hwf' := (consume_pstep p
                    (by rw [hk]; exact ⟨by decide, by decide, by decide⟩)).2.2 hwf
                  have hps := parseType_pstep (consume p)
                  exact ih _ (hps.2.2 hwf') (by have := hps.stream_le; omega)
                · split
                  · simp
                  · -- default: diagnostic recorded, next guard exits
                    cases f with
                    | zero => omega
                    | succ g =>
                      rw [parseRootLoop.eq_2, ok_itemError]
                      simp

theorem parseRootLoop_block_noEnd :
    ∀ (fuel : Nat) (p q : Parser), parseRootLoop fuel p = some q → WF p →
      (∀ i ∈ rem p, i.kind ≠ .ItemEnd) →
      (∃ i ∈ rem p, i.kind = .ItemEnum ∨ i.kind = .ItemChoice ∨
        i.kind = .ItemMessage) →
      ok q = false := by
  intro fuel
  induction fuel with
  | zero => intro p q h _ _ _; simp [parseRootLoop] at h
  | succ f ih =>
    intro p q h hwf hnoend hblock
    simp only [parseRootLoop] at h
    split at h
    · rename_i hok
      cases h
      simpa using hok
    · split at h
      · -- Eol accepted
        rename_i hok hacc
        obtain ⟨hk, he⟩ := accept_true hacc
        rw [he] at h
        have hps := consume_pstep p (hk ▸ nonBlock_Eol)
        exact ih _ _ h (hps.2.2 hwf)
          (fun i hi => hnoend i (hps.rem_subset i hi)) (hps.hasBlock hblock)
      · split at h
        · -- Choice accepted: the body loop must fail
          rename_i hok hacc1 hacc
          obtain ⟨hk, he⟩ := accept_true hacc
          rw [he] at h
          obtain ⟨p2, hpc, hrest⟩ := Option.bind_eq_some.mp h
          have hok2 : ok p2 = false := parseChoice_noEnd hpc
            (fun i hi => hnoend i (consume_rem_subset p i hi))
          have := parseRootLoop_notok _ _ _ hok2 hrest
          rw [this]
          exact hok2
        · split at h
          · -- Enum accepted
            rename_i hok hacc1 hacc2 hacc
            obtain ⟨hk, he⟩ := accept_true hacc
            rw [he] at h
            obtain ⟨p2, hpc, hrest⟩ := Option.bind_eq_some.mp h
            have hok2 : ok p2 = false := parseEnum_noEnd hpc
              (fun i hi => hnoend i (consume_rem_subset p i hi))
            have := parseRootLoop_notok _ _ _ hok2 hrest
            rw [this]
            exact hok2
          · split at h
            · -- Message accepted
              rename_i hok hacc1 hacc2 hacc3 hacc
              obtain ⟨hk, he⟩ := accept_true hacc
              rw [he] at h
              obtain ⟨p2, hpc, hrest⟩ := Option.bind_eq_some.mp h
              have hok2 : ok p2 = false := parseMessage_noEnd hpc
                (fun i hi => hnoend i (consume_rem_subset p i hi))
              have := parseRootLoop_notok _ _ _ hok2 hrest
              rw [this]
              exact hok2
            · split at h
              · -- Package accepted
                rename_i hok hacc1 hacc2 hacc3 hacc4 hacc
                obtain ⟨hk, he⟩ := accept_true hacc
                rw [he] at h
                have hps := (consume_pstep p
                  (by rw [hk]; exact ⟨by decide, by decide, by decide⟩)).trans
                  (parsePackage_pstep (consume p))
                exact ih _ _ h (hps.2.2 hwf)
                  (fun i hi => hnoend i (hps.rem_subset i hi)) (hps.hasBlock hblock)
              · split at h
                · -- Type accepted
                  rename_i hok hacc1 hacc2 hacc3 hacc4 hacc5 hacc
                  obtain ⟨hk, he⟩ := accept_true hacc
                  rw [he] at h
                  have hps := (consume_pstep p
                    (by rw [hk]; exact ⟨by decide, by decide, by decide⟩)).trans
                    (parseType_pstep (consume p))
                  exact ih _ _ h (hps.2.2 hwf)
                    (fun i hi => hnoend i (hps.rem_subset i hi)) (hps.hasBlock hblock)
                · split at h
                  · -- Eof accepted: impossible with a block keyword remaining
                    rename_i hok hacc1 hacc2 hacc3 hacc4 hacc5 hacc6 hacc
                    obtain ⟨hk, _⟩ := accept_true hacc
                    have hnil := WF_eof_stream_nil p hwf hk
                    obtain ⟨i, hi, hik⟩ := hblock
                    unfold rem at hi
                    rw [hnil] at hi
                    simp at hi
                    rw [hi, hk] at hik
                    rcases hik with h' | h' | h' <;> simp at h'
                  · -- default: diagnostic recorded
                    have := parseRootLoop_notok _ _ _ (ok_itemError p p.next none) h
                    rw [this]
                    exact ok_itemError p p.next none

theorem parseText_some (input : List Char) : parseText input ≠ none := by
  unfold parseText
  have hgs := lex_goodStream input
  cases hlex : lexItems input with
  | nil =>
    rw [hlex] at hgs
    exact absurd hgs (by simp [goodStream])
  | cons first rest =>
    rw [hlex] at hgs
    exact parseRootLoop_some _ _ hgs le_rfl

/-! ### Maximal runs: splitting `takeWhile`/`dropWhile` over an append -/

theorem takeWhile_append_all (p : Char → Bool) (a b : List Char)
    (ha : ∀ x ∈ a, p x = true) :
    (a ++ b).takeWhile p = a ++ b.takeWhile p := by
  induction a with
  | nil => simp
  | cons x t ih =>
    rw [List.cons_append, List.takeWhile_cons, if_pos (ha x (by simp)),
      ih (fun y hy => ha y (by simp [hy])), List.cons_append]

theorem dropWhile_append_all (p : Char → Bool) (a b : List Char)
    (ha : ∀ x ∈ a, p x = true) :
    (a ++ b).dropWhile p = b.dropWhile p := by
  induction a with
  | nil => simp
  | cons x t ih =>
    rw [List.cons_append, List.dropWhile_cons_of_pos (ha x (by simp)),
      ih (fun y hy => ha y (by simp [hy]))]

theorem takeWhile_head_false (p : Char → Bool) (b : List Char)
    (hb : ∀ d, b.head? = some d → p d = false) : b.takeWhile p = [] := by
  cases b with
  | nil => rfl
  | cons x t =>
    rw [List.takeWhile_cons, if_neg]
    simp [hb x rfl]

theorem dropWhile_head_false (p : Char → Bool) (b : List Char)
    (hb : ∀ d, b.head? = some d → p d = false) : b.dropWhile p = b := by
  cases b with
  | nil => rfl
  | cons x t => exact List.dropWhile_cons_of_neg (by simp [hb x rfl])

/-- A letter never matches any earlier branch of the lexer dispatch. -/
theorem isLetter_not_special (c : Char) (h : isLetter c = true) :
    c ≠ '/' ∧ isEol c = false ∧ isSpace c = false ∧
    c ≠ '[' ∧ c ≠ ']' ∧ c ≠ '.' ∧ c ≠ ':' := by
  refine ⟨?_, ?_, ?_, ?_, ?_, ?_, ?_⟩
  · rintro rfl; exact absurd h (by decide)
  · cases he : isEol c
    · rfl
    · simp [isEol] at he
      rcases he with rfl | rfl <;> exact absurd h (by decide)
  · cases hs : isSpace c
    · rfl
    · simp [isSpace] at hs
      rcases hs with rfl | rfl <;> exact absurd h (by decide)
  · rintro rfl; exact absurd h (by decide)
  · rintro rfl; exact absurd h (by decide)
  · rintro rfl; exact absurd h (by decide)
  · rintro rfl; exact absurd h (by decide)

/-- A maximal letter-started alphanumeric run is emitted as exactly one item;
the keyword table decides its kind, identifier being the fallback. -/
theorem lex_word_run (c : Char) (w rest : List Char) (pos : Nat)
    (hc : isLetter c = true)
    (hw : ∀ x ∈ w, isAlphaNumeric x = true)
    (hr : ∀ d, rest.head? = some d → isAlphaNumeric d = false) :
    lexFrom ((c :: w) ++ rest) pos =
      ⟨(strToItemKind (c :: w)).getD .ItemIdentifier, c :: w, pos⟩ ::
        lexFrom rest (pos + bytesLen (c :: w)) := by
  obtain ⟨h1, h2, h3, h4, h5, h6, h7⟩ := isLetter_not_special c hc
  have h1' : ¬(c = '/' ∧ (w ++ rest).head? = some '/') := fun hx => h1 hx.1
  have h2' : ¬isEol c = true := by simp [h2]
  have h3' : ¬isSpace c = true := by simp [h3]
  have htw : (w ++ rest).takeWhile isAlphaNumeric = w := by
    rw [takeWhile_append_all _ _ _ hw, takeWhile_head_false _ _ hr,
      List.append_nil]
  have hdw : (w ++ rest).dropWhile isAlphaNumeric = rest := by
    rw [dropWhile_append_all _ _ _ hw, dropWhile_head_false _ _ hr]
  rw [List.cons_append,
    lexFrom_word c (w ++ rest) pos h1' h2' h3' h4 h5 h6 h7 hc, htw, hdw]

/-- One-step unfolding of the root dispatch loop at successor fuel. -/
theorem parseRootLoop_succ (fuel : Nat) (p : Parser) :
    parseRootLoop (fuel + 1) p =
      (if !(ok p) then some p
      else
        let r1 := accept .ItemEol p
        if r1.2 then parseRootLoop fuel r1.1
        else
          let r2 := accept .ItemChoice p
          if r2.2 then (parseChoice r2.1).bind (parseRootLoop fuel)
          else
            let r3 := accept .ItemEnum p
            if r3.2 then (parseEnum r3.1).bind (parseRootLoop fuel)
            else
              let r4 := accept .ItemMessage p
              if r4.2 then (parseMessage r4.1).bind (parseRootLoop fuel)
              else
                let r5 := accept .ItemPackage p
                if r5.2 then parseRootLoop fuel (parsePackage r5.1)
                else
                  let r6 := accept .ItemType p
                  if r6.2 then parseRootLoop fuel (parseType r6.1)
                  else
                    let r7 := accept .ItemEof p
                    if r7.2 then some r7.1
                    else parseRootLoop fuel (itemError p p.next none)) := rfl

theorem pair_fst {A B : Type} (x : A) (y : B) : (x, y).1 = x := rfl

theorem accept_true_of {k : ItemKind} {p : Parser} (h : p.next.kind = k) :
    accept k p = (consume p, true) := by
  unfold accept
  rw [if_pos h]

theorem expect_true_of {k : ItemKind} {p : Parser} (h : p.next.kind = k) :
    expect k p = (consume p, true) := by
  unfold expect
  rw [if_pos h]

theorem consume_mk (st : List Item) (i pr : Item) (k : ItemKind)
    (v : List Char) (ps : Nat) (er : List PError) (pk : List Char)
    (h : k ≠ .ItemEof ∧ k ≠ .ItemError) :
    consume ⟨i :: st, pr, ⟨k, v, ps⟩, er, pk⟩ = ⟨st, ⟨k, v, ps⟩, i, er, pk⟩ := by
  unfold consume
  rw [if_pos h]

theorem consume_eof_mk (st : List Item) (pr : Item) (v : List Char) (ps : Nat)
    (er : List PError) (pk : List Char) :
    consume ⟨st, pr, ⟨.ItemEof, v, ps⟩, er, pk⟩ =
      ⟨st, ⟨.ItemEof, v, ps⟩, ⟨.ItemEof, v, ps⟩, er, pk⟩ := by
  unfold consume
  rw [if_neg (by simp)]

/-- A well-formed package name for the parser: a letter-started alphanumeric
run that is not a keyword. -/
def goodIdent (n : List Char) : Prop :=
  (∃ c cs, n = c :: cs ∧ isLetter c = true) ∧
  (∀ x ∈ n, isAlphaNumeric x = true) ∧ strToItemKind n = none

theorem head_cons_prop (p : Char → Bool) (x : Char) (l : List Char)
    (hx : p x = false) : ∀ d, ((x :: l).head? = some d) → p d = false := by
  intro d hd
  rw [List.head?_cons] at hd
  injection hd with hd
  rw [← hd]
  exact hx

/-! ## Claim theorems -/

/-- C3: tokenizing "0123" produces a lexical error item (leading zero with
more than one digit); tokenizing "123abc" produces a lexical error item
(digits immediately followed by a letter); tokenizing "0" alone produces a
number token with value "0" followed by end-of-input, with no error. -/
theorem c3_number_literal_lexing :
    (lexItems "0123".data).map Item.kind = [.ItemError] ∧
    (lexItems "123abc".data).map Item.kind = [.ItemError] ∧
    lexItems "0".data = [⟨.ItemNumber, ['0'], 0⟩, ⟨.ItemEof, [], 1⟩] := by
  decide

/-- C2 (code bug): `ColumnNumber` does not return a 1-based code-point
column.  It counts only bytes with the top bit clear, starting from -1: the
identifier at the start of input "a" is reported at column 0 (the claim says
column 1), and the end-of-input token of "// é" (four code points, five
bytes) is reported at column 3 because neither byte of the two-byte UTF-8
character é increments the count (the claim's counting gives 5). -/
theorem c2_column_number_divergence :
    lexItems "a".data = [⟨.ItemIdentifier, ['a'], 0⟩, ⟨.ItemEof, [], 1⟩] ∧
    ColumnNumber "a".data ⟨.ItemIdentifier, ['a'], 0⟩ = 0 ∧
    lexItems "// é".data = [⟨.ItemEof, [], 5⟩] ∧
    ColumnNumber "// é".data ⟨.ItemEof, [], 5⟩ = 3 := by
  decide

/-- C5: when the lookahead item is end-of-input or error, `consume` only
records `prev`; the lookahead item and the unread stream are untouched, and
a second `consume` from the resulting state changes nothing at all. -/
theorem c5_consume_pinned_on_eof_or_error (p : Parser)
    (h : p.next.kind = .ItemEof ∨ p.next.kind = .ItemError) :
    consume p = { p with prev := p.next } ∧
    consume (consume p) = { p with prev := p.next } := by
  have hcond : ¬(p.next.kind ≠ .ItemEof ∧ p.next.kind ≠ .ItemError) := by
    rcases h with h | h <;> simp [h]
  simp [consume, hcond]

/-- Witness for C5 at a concrete pinned parser state. -/
theorem c5_witness :
    consume ⟨[], zeroItem, ⟨.ItemEof, [], 7⟩, [], []⟩ =
      ⟨[], ⟨.ItemEof, [], 7⟩, ⟨.ItemEof, [], 7⟩, [], []⟩ ∧
    consume (consume ⟨[], zeroItem, ⟨.ItemEof, [], 7⟩, [], []⟩) =
      ⟨[], ⟨.ItemEof, [], 7⟩, ⟨.ItemEof, [], 7⟩, [], []⟩ :=
  c5_consume_pinned_on_eof_or_error ⟨[], zeroItem, ⟨.ItemEof, [], 7⟩, [], []⟩
    (Or.inl rfl)

/-- C6: every lexer item sequence consists of non-terminal items followed by
exactly one terminator, which is either the single end-of-input item or a
single error item; in particular no item of any kind follows an error item. -/
theorem c6_stream_terminated_once (input : List Char) :
    ∃ pre last, lexItems input = pre ++ [last] ∧
      (last.kind = .ItemEof ∨ last.kind = .ItemError) ∧
      ∀ i ∈ pre, i.kind ≠ .ItemEof ∧ i.kind ≠ .ItemError :=
  lex_terminated input.length input 0 le_rfl

/-- Witness for C6 at a concrete input. -/
theorem c6_witness :
    ∃ pre last, lexItems "1:".data = pre ++ [last] ∧
      (last.kind = .ItemEof ∨ last.kind = .ItemError) ∧
      ∀ i ∈ pre, i.kind ≠ .ItemEof ∧ i.kind ≠ .ItemError :=
  c6_stream_terminated_once "1:".data

/-- C9: every identifier item the lexer emits has a non-empty value starting
with an ASCII letter, whose UTF-8 encoding therefore starts with that
letter's byte — so `Value[0]` in `matchBigIdentifier`/`matchLittleIdentifier`
is in bounds and is an ASCII letter byte. -/
theorem c9_identifier_value_head (input : List Char) :
    ∀ item ∈ lexItems input, item.kind = .ItemIdentifier →
      ∃ d cs, item.value = d :: cs ∧ isLetter d = true ∧
        utf8Bytes item.value = d.toNat :: utf8Bytes cs ∧
        (65 ≤ d.toNat ∧ d.toNat ≤ 90 ∨ 97 ≤ d.toNat ∧ d.toNat ≤ 122) := by
  intro item hitem hkind
  obtain ⟨d, cs, hval, hlet⟩ :=
    lex_ident_value input.length input 0 le_rfl item hitem hkind
  have hrange := isLetter_toNat d hlet
  have hascii : d.toNat < 128 := by omega
  refine ⟨d, cs, hval, hlet, ?_, hrange⟩
  rw [hval]
  show utf8Bytes (d :: cs) = _
  simp [utf8Bytes, charBytes_ascii d hascii]

/-- Witness for C9 at a concrete input. -/
theorem c9_witness :
    ∃ d cs, (⟨.ItemIdentifier, ['a', 'b'], 0⟩ : Item).value = d :: cs ∧
      isLetter d = true ∧
      utf8Bytes (⟨.ItemIdentifier, ['a', 'b'], 0⟩ : Item).value =
        d.toNat :: utf8Bytes cs ∧
      (65 ≤ d.toNat ∧ d.toNat ≤ 90 ∨ 97 ≤ d.toNat ∧ d.toNat ≤ 122) :=
  c9_identifier_value_head "ab".data ⟨.ItemIdentifier, ['a', 'b'], 0⟩
    (by decide) (by decide)

/-- C10: every non-error item's value is exactly the byte slice of the input
at `[Pos, Pos + len(Value))`, and the positions of successively emitted items
strictly increase (hence are non-decreasing, and strictly increasing up to
the end-of-input item). -/
theorem c10_value_is_slice_and_pos_monotone (input : List Char) :
    (∀ item ∈ lexItems input, item.kind ≠ .ItemError →
      utf8Bytes item.value =
        ((utf8Bytes input).drop item.pos).take (bytesLen item.value)) ∧
    List.Chain' (fun x y => x.pos < y.pos) (lexItems input) := by
  obtain ⟨s1, _, s3⟩ := lex_span input.length input 0 le_rfl
  refine ⟨?_, s3⟩
  intro item hitem hne
  obtain ⟨a, b, hab, hp⟩ := s1 item hitem hne
  subst hab
  rw [hp, utf8Bytes_append, utf8Bytes_append, List.append_assoc]
  rw [List.drop_left' (by simp [bytesLen])]
  exact (List.take_left' rfl).symm

/-- Witness for C10 at a concrete input. -/
theorem c10_witness :
    utf8Bytes (⟨.ItemIdentifier, ['a', 'b'], 0⟩ : Item).value =
      ((utf8Bytes "ab".data).drop 0).take (bytesLen ['a', 'b']) :=
  (c10_value_is_slice_and_pos_monotone "ab".data).1
    ⟨.ItemIdentifier, ['a', 'b'], 0⟩ (by decide) (by decide)

/-- C4: on any input whose token stream opens an enum, choice or message
block but contains no `end` keyword token — in particular any file in which
such a block reaches end-of-input unterminated — `ParseText` terminates (the
loops reach their exit conditions; the fuel never runs out) and the result
carries at least one diagnostic rather than silently succeeding. -/
theorem c4_unterminated_block_diagnosed (input : List Char)
    (hblock : ∃ i ∈ lexItems input, i.kind = .ItemEnum ∨ i.kind = .ItemChoice ∨
      i.kind = .ItemMessage)
    (hnoend : ∀ i ∈ lexItems input, i.kind ≠ .ItemEnd) :
    parseText input ≠ none ∧
    (parseText input).map (fun q => q.errors.isEmpty) ≠ some true := by
  refine ⟨parseText_some input, ?_⟩
  cases hpt : parseText input with
  | none => simp
  | some q =>
    have hpt0 := hpt
    unfold parseText at hpt
    have hq : ok q = false := by
      cases hlex : lexItems input with
      | nil =>
        rw [hlex] at hpt
        simp at hpt
      | cons first rest =>
        rw [hlex] at hpt
        have hgs := lex_goodStream input
        rw [hlex] at hgs
        refine parseRootLoop_block_noEnd _ _ _ hpt hgs ?_ ?_
        · intro i hi
          have hi2 : i ∈ first :: rest := hi
          rw [← hlex] at hi2
          exact hnoend i hi2
        · obtain ⟨i, hi, hk⟩ := hblock
          rw [hlex] at hi
          exact ⟨i, hi, hk⟩
    have hq' : q.errors.isEmpty = false := hq
    simp [hq']

/-- Witness for C4 at the spec's example of an unterminated block. -/
theorem c4_witness :
    parseText "enum Color\n    1: Red\n".data ≠ none ∧
    (parseText "enum Color\n    1: Red\n".data).map
      (fun q => q.errors.isEmpty) ≠ some true :=
  c4_unterminated_block_diagnosed "enum Color\n    1: Red\n".data
    (by decide) (by decide)

/-- C7: when the lexer's cursor stands at a maximal run of letters and digits
beginning with a letter, it emits exactly one item covering the whole run;
the item's kind is the keyword kind whenever the run's exact text is in the
reserved-word/basic-type table (`strToItemKind`), and identifier kind only on
a missed lookup (`getD`), so a keyword spelling is never emitted as an
identifier. -/
theorem c7_keyword_shadows_identifier (c : Char) (w rest : List Char)
    (pos : Nat) (hc : isLetter c = true)
    (hw : ∀ x ∈ w, isAlphaNumeric x = true)
    (hr : ∀ d, rest.head? = some d → isAlphaNumeric d = false) :
    lexFrom ((c :: w) ++ rest) pos =
      ⟨(strToItemKind (c :: w)).getD .ItemIdentifier, c :: w, pos⟩ ::
        lexFrom rest (pos + bytesLen (c :: w)) :=
  lex_word_run c w rest pos hc hw hr

/-- Witness for C7 at the reserved word "end". -/
theorem c7_witness :
    lexFrom (('e' :: ['n', 'd']) ++ []) 0 =
      ⟨(strToItemKind ('e' :: ['n', 'd'])).getD .ItemIdentifier,
        'e' :: ['n', 'd'], 0⟩ ::
        lexFrom [] (0 + bytesLen ('e' :: ['n', 'd'])) :=
  c7_keyword_shadows_identifier 'e' ['n', 'd'] [] 0 (by decide) (by decide)
    (fun _ hd => nomatch hd)

/-- C1 (counterexample): a file with two independent syntactic errors in two
declarations yields exactly one diagnostic, not two — the dispatch loop does
not resume after the first failing declaration. -/
theorem c1_counterexample :
    (parseText "enum x\nenum y\n".data).map (fun q => q.errors.length) =
      some 1 := by
  decide

/-- C1 (amended): the top-level dispatch loop runs only while the error list
is empty, so it exits as soon as any diagnostic has been recorded; for the
two-error file only the first declaration's diagnostic is reported. -/
theorem c1_first_error_stops_dispatch :
    (∀ (fuel : Nat) (p : Parser), p.errors ≠ [] →
      parseRootLoop (fuel + 1) p = some p) ∧
    (parseText "enum x\nenum y\n".data).map (fun q => q.errors) =
      some [⟨⟨.ItemIdentifier, ['x'], 5⟩, .expectedBig⟩] := by
  constructor
  · intro fuel p h
    simp [parseRootLoop, ok, List.isEmpty_iff, h]
  · decide

/-- Witness for C1's amended theorem at a concrete errored state. -/
theorem c1_witness :
    parseRootLoop 1 ⟨[], zeroItem, zeroItem, [⟨zeroItem, .unexpectedToken⟩], []⟩ =
      some ⟨[], zeroItem, zeroItem, [⟨zeroItem, .unexpectedToken⟩], []⟩ :=
  c1_first_error_stops_dispatch.1 0
    ⟨[], zeroItem, zeroItem, [⟨zeroItem, .unexpectedToken⟩], []⟩ (by decide)

/-- C8: when a file contains two package declarations, the second silently
overwrites the first: `parsePackage` assigns `p.pkg` unconditionally and
pushes no error, so parsing "package n1 NL package n2 NL" (for any two
well-formed non-keyword lowercase-start or any letter-start names) ends with
an empty error list and `pkg` equal to the second name. -/
theorem c8_second_package_overwrites (n1 n2 : List Char) (h1 : goodIdent n1) (h2 : goodIdent n2) :
    (parseText (('p' :: ['a', 'c', 'k', 'a', 'g', 'e']) ++ (' ' ::
        (n1 ++ ('\n' :: (('p' :: ['a', 'c', 'k', 'a', 'g', 'e']) ++
          (' ' :: (n2 ++ ['\n'])))))))).map (fun q => (q.errors, q.pkg)) =
      some ([], n2) := by
  obtain ⟨⟨c1, w1, hn1, hlet1⟩, hall1, hkw1⟩ := h1
  obtain ⟨⟨c2, w2, hn2, hlet2⟩, hall2, hkw2⟩ := h2
  unfold parseText lexItems
  set A : List Char := ['a', 'c', 'k', 'a', 'g', 'e'] with hA
  set X2 : List Char := ('p' :: A) ++ (' ' :: (n2 ++ ['\n'])) with hX2
  set X1 : List Char := n1 ++ ('\n' :: X2) with hX1
  -- first "package" keyword
  have e1 := lex_word_run 'p' A (' ' :: X1) 0 (by decide)
    (by rw [hA]; decide) (head_cons_prop isAlphaNumeric ' ' X1 (by decide))
  rw [e1]
  rw [show strToItemKind ('p' :: A) = some .ItemPackage from by rw [hA]; decide,
    Option.getD_some]
  -- the space after it
  have e2 := lexFrom_space ' ' X1 (0 + bytesLen ('p' :: A))
    (fun hx => absurd hx.1 (by decide)) (by decide) (by decide)
  rw [e2]
  have hX1head : ∀ d, X1.head? = some d → isSpace d = false := by
    rw [hX1, hn1, List.cons_append]
    exact head_cons_prop isSpace c1 _
      (isLetter_not_special c1 hlet1).2.2.1
  rw [takeWhile_head_false isSpace X1 hX1head,
    dropWhile_head_false isSpace X1 hX1head]
  -- the first package name
  rw [hX1, hn1]
  have e3 := lex_word_run c1 w1 ('\n' :: X2)
    (0 + bytesLen ('p' :: A) + bytesLen [' ']) hlet1
    (fun x hx => hall1 x (by rw [hn1]; exact List.mem_cons_of_mem _ hx))
    (head_cons_prop isAlphaNumeric '\n' X2 (by decide))
  rw [e3]
  rw [show strToItemKind (c1 :: w1) = none from by rw [← hn1]; exact hkw1,
    Option.getD_none]
  -- the first end of line
  have e4 := lexFrom_eol '\n' X2
    (0 + bytesLen ('p' :: A) + bytesLen [' '] + bytesLen (c1 :: w1))
    (fun hx => absurd hx.1 (by decide)) (by decide)
  rw [e4]
  have hX2head : ∀ d, X2.head? = some d → isEol d = false := by
    rw [hX2, List.cons_append]
    exact head_cons_prop isEol 'p' _ (by decide)
  rw [takeWhile_head_false isEol X2 hX2head,
    dropWhile_head_false isEol X2 hX2head]
  -- the second "package" keyword
  rw [hX2]
  have e5 := lex_word_run 'p' A (' ' :: (n2 ++ ['\n']))
    (0 + bytesLen ('p' :: A) + bytesLen [' '] + bytesLen (c1 :: w1) +
      bytesLen ['\n'])
    (by decide) (by rw [hA]; decide)
    (head_cons_prop isAlphaNumeric ' ' _ (by decide))
  rw [e5]
  rw [show strToItemKind ('p' :: A) = some .ItemPackage from by rw [hA]; decide,
    Option.getD_some]
  -- the second space
  have e6 := lexFrom_space ' ' (n2 ++ ['\n'])
    (0 + bytesLen ('p' :: A) + bytesLen [' '] + bytesLen (c1 :: w1) +
      bytesLen ['\n'] + bytesLen ('p' :: A))
    (fun hx => absurd hx.1 (by decide)) (by decide) (by decide)
  rw [e6]
  have hn2head : ∀ d, (n2 ++ ['\n']).head? = some d → isSpace d = false := by
    rw [hn2, List.cons_append]
    exact head_cons_prop isSpace c2 _
      (isLetter_not_special c2 hlet2).2.2.1
  rw [takeWhile_head_false isSpace _ hn2head,
    dropWhile_head_false isSpace _ hn2head]
  -- the second package name
  rw [hn2]
  have e7 := lex_word_run c2 w2 ['\n']
    (0 + bytesLen ('p' :: A) + bytesLen [' '] + bytesLen (c1 :: w1) +
      bytesLen ['\n'] + bytesLen ('p' :: A) + bytesLen [' ']) hlet2
    (fun x hx => hall2 x (by rw [hn2]; exact List.mem_cons_of_mem _ hx))
    (head_cons_prop isAlphaNumeric '\n' [] (by decide))
  rw [e7]
  rw [show strToItemKind (c2 :: w2) = none from by rw [← hn2]; exact hkw2,
    Option.getD_none]
  -- the final end of line and end of input
  have e8 := lexFrom_eol '\n' []
    (0 + bytesLen ('p' :: A) + bytesLen [' '] + bytesLen (c1 :: w1) +
      bytesLen ['\n'] + bytesLen ('p' :: A) + bytesLen [' '] +
      bytesLen (c2 :: w2))
    (fun hx => absurd hx.1 (by decide)) (by decide)
  rw [e8]
  rw [show List.takeWhile isEol ([] : List Char) = [] from rfl,
    show List.dropWhile isEol ([] : List Char) = [] from rfl, lexFrom_nil]
  -- the parser run over the seven items
  simp only [List.length_cons, List.length_nil]
  rw [show (0 + 1 + 1 + 1 + 1 + 1 + 1 + 2 : Nat) = 7 + 1 by norm_num,
    parseRootLoop_succ]
  simp only [ok, List.isEmpty_nil, Bool.not_true, Bool.false_eq_true, if_false]
  rw [accept_false_of (by simp), accept_false_of (by simp),
    accept_false_of (by simp), accept_false_of (by simp)]
  rw [accept_true_of (by simp)]
  rw [consume_mk _ _ _ _ _ _ _ _ (by decide)]
  simp only [pair_fst, Bool.false_eq_true, eq_self_iff_true, if_true, if_false]
  simp only [parsePackage]
  rw [expect_true_of (by simp)]
  rw [consume_mk _ _ _ _ _ _ _ _ (by decide)]
  simp only [pair_fst, Bool.false_eq_true, eq_self_iff_true, if_true, if_false]
  rw [expect_true_of (by simp)]
  rw [consume_mk _ _ _ _ _ _ _ _ (by decide)]
  simp only [pair_fst, Bool.false_eq_true, eq_self_iff_true, if_true, if_false]
  rw [show (7 : Nat) = 6 + 1 by norm_num, parseRootLoop_succ]
  simp only [ok, List.isEmpty_nil, Bool.not_true, Bool.false_eq_true, if_false]
  rw [accept_false_of (by simp), accept_false_of (by simp),
    accept_false_of (by simp), accept_false_of (by simp)]
  rw [accept_true_of (by simp)]
  rw [consume_mk _ _ _ _ _ _ _ _ (by decide)]
  simp only [pair_fst, Bool.false_eq_true, eq_self_iff_true, if_true, if_false]
  simp only [parsePackage]
  rw [expect_true_of (by simp)]
  rw [consume_mk _ _ _ _ _ _ _ _ (by decide)]
  simp only [pair_fst, Bool.false_eq_true, eq_self_iff_true, if_true, if_false]
  rw [expect_true_of (by simp)]
  rw [consume_mk _ _ _ _ _ _ _ _ (by decide)]
  simp only [pair_fst, Bool.false_eq_true, eq_self_iff_true, if_true, if_false]
  rw [show (6 : Nat) = 5 + 1 by norm_num, parseRootLoop_succ]
  simp only [ok, List.isEmpty_nil, Bool.not_true, Bool.false_eq_true, if_false]
  rw [accept_false_of (by simp), accept_false_of (by simp),
    accept_false_of (by simp), accept_false_of (by simp),
    accept_false_of (by simp), accept_false_of (by simp)]
  rw [accept_true_of (by simp)]
  rw [consume_eof_mk]
  simp only [pair_fst, Bool.false_eq_true, eq_self_iff_true, if_true, if_false]
  simp only [Option.map]

theorem c8_witness :
    (parseText (('p' :: ['a', 'c', 'k', 'a', 'g', 'e']) ++ (' ' ::
        (['a', 'a'] ++ ('\n' :: (('p' :: ['a', 'c', 'k', 'a', 'g', 'e']) ++
          (' ' :: (['b', 'b'] ++ ['\n'])))))))).map
      (fun q => (q.errors, q.pkg)) = some ([], ['b', 'b']) :=
  c8_second_package_overwrites ['a', 'a'] ['b', 'b']
    ⟨⟨'a', ['a'], rfl, by decide⟩, by decide, by decide⟩
    ⟨⟨'b', ['b'], rfl, by decide⟩, by decide, by decide⟩

end Speak
